import Mathlib

/-!
# Checkers rules engine (`games/checkers/checkers.js`)

A shallow embedding of the `Board` and `Piece` classes and of the click-driven
turn logic, followed by theorems about move legality, move application and the
selection state machine.

Conventions of the embedding:

* JavaScript numbers that hold board coordinates are `Int`; sizes are `Nat`.
* `null` and `undefined` are both `none` (the source only ever tests `== null`).
* A JavaScript array is a `List`; reading an index that is not an element gives
  `undefined`, and indexing `undefined` throws a `TypeError`.
* Mutable objects are passed and returned explicitly. A `Piece` object stored in
  the grid is represented by its field values; the methods of `Piece` receive the
  board that `this.board` points to as their first argument.
* Canvas drawing and the pixel to cell conversion are not part of the embedding;
  `boardClicked` starts from the cell coordinates `boardX`, `boardY`.
-/

namespace Checkers


/-- The two strings of `pieceColors`. -/
inductive Color where
  | white
  | black
deriving DecidableEq

/-- Ways in which evaluation of the embedded code can stop.
`typeError` is the JavaScript `TypeError` raised by indexing `undefined`.
`storeOutsideGrid` marks a store `col[y] = v` at an index that is not an element
of the column: JavaScript would grow the array or add a property, which the list
model does not represent, so evaluation of the model stops there. -/
inductive JsError where
  | typeError
  | storeOutsideGrid
deriving DecidableEq

deriving instance DecidableEq for Except

/-- Fields of a `Piece` object (`king` is the content of `this.king.value`). -/
structure Piece where
  x : Int
  y : Int
  color : Color
  king : Bool
deriving DecidableEq

/-- Fields of a `Board` object; `pieces` is the array of columns. -/
structure Board where
  width : Nat
  height : Nat
  pieces : List (List (Option Piece))
deriving DecidableEq

/-- The constant `pieceColors = ["white", "black"]`. -/
def pieceColors : List Color := [Color.white, Color.black]

/-- The constant `pieceForwards = [1, -1]`. -/
def pieceForwards : List Int := [1, -1]

/-- Array read `xs[i]`; `none` is `undefined`. -/
def arrayGet {α : Type} (xs : List α) (i : Int) : Option α :=
  if 0 ≤ i then xs[i.toNat]? else none

/-- The sub-expression `this.pieces[x]` followed by an index: fails when the
column is `undefined`. -/
def Board.column (b : Board) (x : Int) : Except JsError (List (Option Piece)) :=
  match arrayGet b.pieces x with
  | some col => .ok col
  | none => .error JsError.typeError

/-- Method `Board.validPos`. -/
def Board.validPos (b : Board) (x y : Int) : Bool :=
  decide (x ≥ 0) && decide (x < (b.width : Int)) && decide (y ≥ 0) && decide (y < (b.height : Int))

/-- Method `Board.getPiece`. -/
def Board.getPiece (b : Board) (x y : Int) : Except JsError (Option Piece) :=
  (b.column x).bind fun col => .ok ((arrayGet col y).join)

/-- Method `Board.isEmpty`. -/
def Board.isEmpty (b : Board) (x y : Int) : Except JsError Bool :=
  (b.column x).bind fun col => .ok ((arrayGet col y).join == none)

/-- Method `Board.setPiece`: the piece, when there is one, first gets the position
`(x, y)` and is then stored. The result carries the new board. -/
def Board.setPiece (b : Board) (x y : Int) (piece : Option Piece) : Except JsError Board :=
  let piece := piece.map fun p => { p with x := x, y := y }
  (b.column x).bind fun col =>
    if 0 ≤ y ∧ y < (col.length : Int) then
      .ok { b with pieces := b.pieces.set x.toNat (col.set y.toNat piece) }
    else
      .error JsError.storeOutsideGrid

/-- Method `Board.removePiece`. -/
def Board.removePiece (b : Board) (x y : Int) : Except JsError Board :=
  b.setPiece x y none

/-- Method `Piece.isKing`. -/
def Piece.isKing (p : Piece) : Bool := p.king

/-- Method `Piece.getForwards`: `pieceForwards[pieceColors.indexOf(this.color)]`. -/
def Piece.getForwards (p : Piece) : Option Int :=
  pieceForwards[pieceColors.indexOf p.color]?

/-- The test `yDist / xDist != 1` negated, on the non-negative integers that
`Math.abs` returns: the quotient of two numbers is `1` exactly when the divisor
is not `0` and both are equal (`n / 0` is `Infinity` or `NaN`). -/
def quotientIsOne (yDist xDist : Nat) : Bool :=
  xDist != 0 && yDist == xDist

/-- Method `Piece.canMove`: the pair is `returnVals`, first legality, then capture. -/
def Piece.canMove (b : Board) (p : Piece) (x y : Int) : Except JsError (Bool × Bool) :=
  if !b.validPos x y then .ok (false, false) else
  (b.isEmpty x y).bind fun empty =>
  if !empty then .ok (false, false) else
  let xDiff := x - p.x
  let yDiff := y - p.y
  let xDist := xDiff.natAbs
  let yDist := yDiff.natAbs
  if !quotientIsOne yDist xDist then .ok (false, false) else
  if some (Int.sign (-yDiff)) != p.getForwards && !p.isKing then .ok (false, false) else
  let capturing := xDist == 2
  if capturing then
    (b.getPiece (p.x + Int.sign xDiff) (p.y + Int.sign yDiff)).bind fun captured =>
    match captured with
    | none => .ok (false, false)
    | some c =>
      if c.color = p.color then .ok (false, false)
      else .ok (xDist == 1 || true, true)
  else
    .ok (xDist == 1 || false, false)

/-- The nested loops `for x < xs { for y < ys { if (test(x, y)) return true } }
return false`, with the cells visited in the order of the loops. -/
def scanCells (test : Int → Int → Except JsError Bool) : List (Int × Int) → Except JsError Bool
  | [] => .ok false
  | (x, y) :: rest =>
    (test x y).bind fun hit => if hit then .ok true else scanCells test rest

/-- The cells `(x, y)` visited by `for x < xs` around `for y < ys`, in order. -/
def loopCells (xs ys : Nat) : List (Int × Int) :=
  (List.range xs).flatMap fun (x : Nat) => (List.range ys).map fun (y : Nat) => ((x : Int), (y : Int))

/-- Method `Piece.canMoveAnywhere`: both loops of the source run up to `board.width`. -/
def Piece.canMoveAnywhere (b : Board) (p : Piece) : Except JsError Bool :=
  scanCells (fun x y => (p.canMove b x y).map fun r => r.1) (loopCells b.width b.width)

/-- Method `Piece.canCaptureAnywhere`: both loops of the source run up to `board.width`. -/
def Piece.canCaptureAnywhere (b : Board) (p : Piece) : Except JsError Bool :=
  scanCells (fun x y => (p.canMove b x y).map fun r => r.2) (loopCells b.width b.width)

/-- The row on which a piece is crowned: the constant `test` of `Piece.move`. -/
def Piece.promotionRow (b : Board) (p : Piece) : Int :=
  if p.getForwards == some 1 then 0 else (b.height : Int) - 1

/-- Method `Piece.move`. The result is the board after the move, the fields of
`this` after the move, and the returned value `capture`. -/
def Piece.move (b : Board) (p : Piece) (x y : Int) : Except JsError (Board × Piece × Bool) :=
  let capture := (x - p.x).natAbs == 2
  (if capture then
    let xStep := Int.sign (x - p.x)
    let yStep := Int.sign (y - p.y)
    b.removePiece (p.x + xStep) (p.y + yStep)
  else .ok b).bind fun b1 =>
  let test : Int := p.promotionRow b
  let p1 : Piece := if y == test then { p with king := true } else p
  (b1.removePiece p1.x p1.y).bind fun b2 =>
  (b2.setPiece x y (some p1)).bind fun b3 =>
  .ok (b3, { p1 with x := x, y := y }, capture)

/-- The iteration `this.pieces.forEach((col) => col.forEach(body))`; the locals
that the body updates are threaded through as `acc`. -/
def Board.forEachPiece {σ : Type} (b : Board) (body : σ → Option Piece → Except JsError σ)
    (acc : σ) : Except JsError σ :=
  b.pieces.foldlM (fun acc col => col.foldlM body acc) acc

/-- Method `Board.getLoss`; `color` is the argument (`none` for `undefined`) and
the accumulator is `(pieceCount, canColorMove)`. -/
def Board.getLoss (b : Board) (color : Option Color) : Except JsError Bool :=
  (b.forEachPiece (fun (acc : Nat × Bool) piece =>
    match piece with
    | none => .ok acc
    | some p =>
      if some p.color ≠ color then .ok acc
      else (p.canMoveAnywhere b).bind fun m => .ok (acc.1 + 1, acc.2 || m)) (0, false)).bind
  fun acc => if acc.1 == 0 || !acc.2 then .ok true else .ok false

/-- Method `Board.canPlayerCapture`; the accumulator is `canColorCapture`. -/
def Board.canPlayerCapture (b : Board) (color : Option Color) : Except JsError Bool :=
  b.forEachPiece (fun (acc : Bool) piece =>
    match piece with
    | none => .ok acc
    | some p =>
      if some p.color ≠ color then .ok acc
      else (p.canCaptureAnywhere b).bind fun c => .ok (acc || c)) false

/-- One cell of the grid built by `Board.initPieces`. -/
def initCell (x y : Nat) : Option Piece :=
  let pieceTile := (x + y) % 2 == 0
  let whiteZone := decide (y ≥ 5)
  let blackZone := decide (y ≤ 2)
  let newPiece : Option Piece := none
  let newPiece := if pieceTile && whiteZone then some ⟨x, y, Color.white, false⟩ else newPiece
  let newPiece := if pieceTile && blackZone then some ⟨x, y, Color.black, false⟩ else newPiece
  newPiece

/-- Method `Board.initPieces`. -/
def Board.initPieces (b : Board) : Board :=
  { b with pieces := (List.range b.width).map fun (x : Nat) =>
      (List.range b.height).map fun (y : Nat) => initCell x y }

/-- The constructor `new Board(width, height)`. -/
def Board.new (width height : Nat) : Board :=
  Board.initPieces ⟨width, height, []⟩

/-- Effects on the page, in the order in which they happen. -/
inductive Event where
  | sound
  | alert (msg : String)
deriving DecidableEq

/-- The globals `board`, `selectedPiece`, `currentPlayer`, and the effects so far. -/
structure State where
  board : Board
  selectedPiece : Option Piece
  currentPlayer : Nat
  events : List Event
deriving DecidableEq

/-- The string of a color in upper case, `color.toUpperCase()`. -/
def Color.toUpperCase : Color → String
  | Color.white => "WHITE"
  | Color.black => "BLACK"

/-- Function `advanceGame`. -/
def advanceGame (s : State) : Except JsError State :=
  let previous := s.currentPlayer
  let s1 : State := { s with currentPlayer := (s.currentPlayer + 1) % pieceColors.length }
  (s1.board.getLoss pieceColors[s1.currentPlayer]?).bind fun loss =>
  if loss then
    match pieceColors[previous]? with
    | none => .error JsError.typeError
    | some c => .ok { s1 with events := s1.events ++ [Event.alert (c.toUpperCase ++ " WINS!")] }
  else .ok s1

/-- Function `boardClicked`, from the cell coordinates on. -/
def boardClicked (s : State) (boardX boardY : Int) : Except JsError State :=
  if !s.board.validPos boardX boardY then .ok s else
  (s.board.getPiece boardX boardY).bind fun piece =>
  match piece with
  | some piece =>
    if some piece.color ≠ pieceColors[s.currentPlayer]? then .ok s
    else .ok { s with selectedPiece := some piece }
  | none =>
    match s.selectedPiece with
    | none => .ok s
    | some selected =>
      (s.board.canPlayerCapture pieceColors[s.currentPlayer]?).bind fun canCapture =>
      let moveRequirement : Nat := if canCapture then 1 else 0
      (selected.canMove s.board boardX boardY).bind fun moves =>
      if (if moveRequirement = 1 then moves.2 else moves.1) then
        (selected.move s.board boardX boardY).bind fun moved =>
        let s1 : State :=
          { s with board := moved.1, selectedPiece := some moved.2.1, events := s.events ++ [Event.sound] }
        (advanceGame s1).bind fun s2 => .ok { s2 with selectedPiece := none }
      else .ok { s with selectedPiece := none }

/-- Function `resetBoard`. -/
def resetBoard (s : State) : State :=
  { s with currentPlayer := 0, selectedPiece := none, board := s.board.initPieces }

/-- The globals when the script has loaded: `new Board(8, 8)`, no selection,
player `0`. -/
def initialState : State :=
  { board := Board.new 8 8, selectedPiece := none, currentPlayer := 0, events := [] }

/-! ## Predicates used to state the properties -/

/-- The grid has `width` columns of `height` cells each, as built by
`Board.initPieces` and kept by every store inside the grid. -/
def Board.WellFormed (b : Board) : Prop :=
  b.pieces.length = b.width ∧ ∀ col ∈ b.pieces, col.length = b.height

/-- The piece `p` is on the board: the cell at its stored position holds it. -/
def Board.Holds (b : Board) (p : Piece) : Prop :=
  b.getPiece p.x p.y = .ok (some p)

/-- A move to row `y` goes toward the promotion row of the piece: it ends
strictly closer to that row than it started. -/
def Piece.towardPromotion (b : Board) (p : Piece) (y : Int) : Prop :=
  (p.promotionRow b - y).natAbs < (p.promotionRow b - p.y).natAbs

/-- Every piece stored in the grid carries the coordinates of its cell. -/
def Board.Synced (b : Board) : Prop :=
  ∀ (x y : Int) (p : Piece), b.getPiece x y = .ok (some p) → p.x = x ∧ p.y = y

/-- A `width` by `height` grid that holds exactly the listed pieces, each in the
cell of its stored position; used to write down concrete positions. -/
def Board.ofPieces (width height : Nat) (ps : List Piece) : Board :=
  { width := width, height := height,
    pieces := (List.range width).map fun (x : Nat) => (List.range height).map fun (y : Nat) =>
      ps.find? fun p => p.x == (x : Int) && p.y == (y : Int) }

instance (b : Board) : Decidable b.WellFormed := by
  unfold Board.WellFormed
  infer_instance

instance (b : Board) (p : Piece) : Decidable (b.Holds p) := by
  unfold Board.Holds
  infer_instance

instance (b : Board) (p : Piece) (y : Int) : Decidable (p.towardPromotion b y) := by
  unfold Piece.towardPromotion
  infer_instance

/-- The fields of the moving piece after `Piece.move`: crowned when the target
row is the promotion row, and at the target position. -/
def Piece.afterMove (b : Board) (p : Piece) (x y : Int) : Piece :=
  { (if y == p.promotionRow b then { p with king := true } else p) with x := x, y := y }

/-- Successive calls `piece.move(x, y)` of one piece for a list of targets, each
on the board left by the call before. -/
def Piece.moveAll (b : Board) (p : Piece) : List (Int × Int) → Except JsError (Board × Piece)
  | [] => .ok (b, p)
  | (x, y) :: rest => (p.move b x y).bind fun r => Piece.moveAll r.1 r.2.1 rest

/-- The position of the end-to-end scenario of the specification: an 8x8 board
with a black piece at (3,4) and a white piece at (4,5). -/
def scenarioBoard : Board :=
  Board.ofPieces 8 8 [⟨3, 4, Color.black, false⟩, ⟨4, 5, Color.white, false⟩]

/-- The clicks of a list, one after the other. -/
def clicks (s : State) : List (Int × Int) → Except JsError State
  | [] => .ok s
  | (x, y) :: rest => (boardClicked s x y).bind fun s2 => clicks s2 rest

/-- The 4 by 6 position after the moves white (3,5) to (2,4), black (2,2) to
(1,3), white (1,5) to (0,4) from the initial layout. -/
def narrowPosition : Board :=
  Board.ofPieces 4 6 [⟨0, 0, Color.black, false⟩, ⟨2, 0, Color.black, false⟩,
    ⟨1, 1, Color.black, false⟩, ⟨3, 1, Color.black, false⟩, ⟨0, 2, Color.black, false⟩,
    ⟨1, 3, Color.black, false⟩, ⟨2, 4, Color.white, false⟩, ⟨0, 4, Color.white, false⟩]

/-- The sync condition at one cell, as a test. -/
def Board.syncedAt (b : Board) (x y : Nat) : Bool :=
  match b.getPiece x y with
  | .ok (some p) => p.x == (x : Int) && p.y == (y : Int)
  | _ => true

/-- The sync condition at every cell of the board, as a test. -/
def Board.syncedCheck (b : Board) : Bool :=
  (List.range b.width).all fun (x : Nat) => (List.range b.height).all fun (y : Nat) => b.syncedAt x y

/-- The mandatory-capture scenario of the specification, black to move: the
black piece at (3,4) can capture the white piece at (4,5), the black piece at
(0,0) can only step; `selected` is the selected piece. -/
def mandatoryState (selected : Piece) : State :=
  { board := Board.ofPieces 8 8
      [⟨3, 4, Color.black, false⟩, ⟨4, 5, Color.white, false⟩, ⟨0, 0, Color.black, false⟩]
    selectedPiece := some selected
    currentPlayer := 1
    events := [] }

/-- The number of pieces of a color in the grid. -/
def Board.countColor (b : Board) (c : Color) : Nat :=
  b.pieces.flatten.countP fun cell =>
    match cell with
    | some p => p.color == c
    | none => false

/-- The number of pieces in the grid. -/
def Board.countPieces (b : Board) : Nat :=
  b.pieces.flatten.countP fun cell => cell.isSome

/-- Boards reached from a grid built by `initPieces` through legal calls of
`move` on pieces of the board. -/
inductive Board.MoveReachable : Board → Prop where
  | init (b : Board) : Board.MoveReachable b.initPieces
  | move {b : Board} {p : Piece} {x y : Int} {c : Bool} {r : Board × Piece × Bool} :
      Board.MoveReachable b → b.Holds p → p.canMove b x y = .ok (true, c) →
      p.move b x y = .ok r → Board.MoveReachable r.1

/-- States reached from the start of the game through clicks and resets. -/
inductive State.Reachable : State → Prop where
  | start : State.Reachable initialState
  | click {s s2 : State} (x y : Int) :
      State.Reachable s → boardClicked s x y = .ok s2 → State.Reachable s2
  | reset {s : State} : State.Reachable s → State.Reachable (resetBoard s)

/-- What every state of the 8x8 game satisfies: a well-formed 8x8 grid whose
pieces carry their coordinates, a player index below 2, and a selection that, if
present, is a piece on the board of the color of the current player. -/
def State.Playable (s : State) : Prop :=
  s.board.WellFormed ∧ s.board.Synced ∧ s.board.width = 8 ∧ s.board.height = 8 ∧
  s.currentPlayer < 2 ∧
  ∀ p, s.selectedPiece = some p → s.board.Holds p ∧ some p.color = pieceColors[s.currentPlayer]?

/-- A complete game of 33 moves, as the list of its 66 clicks (piece, target),
white moving first; it ends with black to move and unable to move. -/
def lostGame : List (Int × Int) :=
  [(1, 5), (2, 4), (0, 2), (1, 3), (2, 4), (0, 2), (4, 2), (3, 3), (3, 5), (4, 4), (3, 3), (2, 4),
   (2, 6), (1, 5), (2, 2), (3, 3), (4, 4), (2, 2), (3, 1), (1, 3), (1, 5), (3, 3), (2, 0), (3, 1),
   (0, 2), (2, 0), (1, 3), (0, 4), (2, 0), (4, 2), (4, 0), (3, 1), (4, 2), (2, 0), (0, 4), (1, 5),
   (0, 6), (2, 4), (6, 2), (7, 3), (7, 5), (6, 4), (5, 1), (6, 2), (3, 3), (4, 2), (6, 0), (5, 1),
   (4, 2), (6, 0), (0, 0), (1, 1), (2, 0), (0, 2), (6, 2), (5, 3), (6, 4), (4, 2), (7, 3), (6, 4),
   (5, 5), (7, 3), (7, 1), (6, 2), (7, 3), (5, 1)]

/-- The contribution of one cell to `Board.countColor`. -/
def cellCount (c : Color) (cell : Option Piece) : Nat :=
  if (match cell with
    | some p => p.color == c
    | none => false) = true then 1 else 0

/-- Method `Piece.canMove` with a record of its grid reads: the first component
lists, in order, the coordinates passed to `isEmpty` and `getPiece`; the second
is the result. -/
def Piece.canMoveTraced (b : Board) (p : Piece) (x y : Int) :
    List (Int × Int) × Except JsError (Bool × Bool) :=
  if !b.validPos x y then ([], .ok (false, false)) else
  match b.isEmpty x y with
  | .error e => ([(x, y)], .error e)
  | .ok empty =>
    if !empty then ([(x, y)], .ok (false, false)) else
    let xDiff := x - p.x
    let yDiff := y - p.y
    let xDist := xDiff.natAbs
    let yDist := yDiff.natAbs
    if !quotientIsOne yDist xDist then ([(x, y)], .ok (false, false)) else
    if some (Int.sign (-yDiff)) != p.getForwards && !p.isKing then ([(x, y)], .ok (false, false)) else
    let capturing := xDist == 2
    if capturing then
      ([(x, y), (p.x + Int.sign xDiff, p.y + Int.sign yDiff)],
        (b.getPiece (p.x + Int.sign xDiff) (p.y + Int.sign yDiff)).bind fun captured =>
        match captured with
        | none => .ok (false, false)
        | some c =>
          if c.color = p.color then .ok (false, false)
          else .ok (xDist == 1 || true, true))
    else
      ([(x, y)], .ok (xDist == 1 || false, false))

/-- Method `Piece.move` with a record of its grid writes: the first component
lists, in order, the coordinates passed to `removePiece` and `setPiece`; the
second is the result. -/
def Piece.moveTraced (b : Board) (p : Piece) (x y : Int) :
    List (Int × Int) × Except JsError (Board × Piece × Bool) :=
  let capture := (x - p.x).natAbs == 2
  let xStep := Int.sign (x - p.x)
  let yStep := Int.sign (y - p.y)
  let w1 : List (Int × Int) := if capture then [(p.x + xStep, p.y + yStep)] else []
  match (if capture then b.removePiece (p.x + xStep) (p.y + yStep) else .ok b) with
  | .error e => (w1, .error e)
  | .ok b1 =>
    let test : Int := p.promotionRow b
    let p1 : Piece := if y == test then { p with king := true } else p
    match b1.removePiece p1.x p1.y with
    | .error e => (w1 ++ [(p1.x, p1.y)], .error e)
    | .ok b2 =>
      (w1 ++ [(p1.x, p1.y), (x, y)],
        (b2.setPiece x y (some p1)).bind fun b3 => .ok (b3, { p1 with x := x, y := y }, capture))

/-! # Theorems -/

/-! ## Arrays and cells -/

theorem arrayGet_eq_some {α : Type} {xs : List α} {i : Int} {a : α}
    (h : arrayGet xs i = some a) : 0 ≤ i ∧ i.toNat < xs.length := by
  unfold arrayGet at h
  split at h
  · rename_i hi
    exact ⟨hi, (List.getElem?_eq_some_iff.mp h).1⟩
  · cases h

theorem arrayGet_isSome {α : Type} (xs : List α) {i : Int} (h0 : 0 ≤ i)
    (h1 : i < (xs.length : Int)) : ∃ a, arrayGet xs i = some a := by
  have hlt : i.toNat < xs.length := by omega
  exact ⟨xs[i.toNat], by simp [arrayGet, h0, List.getElem?_eq_getElem hlt]⟩

theorem arrayGet_mem {α : Type} {xs : List α} {i : Int} {a : α}
    (h : arrayGet xs i = some a) : a ∈ xs := by
  unfold arrayGet at h
  split at h
  · exact List.getElem?_mem h
  · cases h

theorem arrayGet_set {α : Type} (xs : List α) {n : Int} (a : α) (i : Int)
    (h0 : 0 ≤ n) (h1 : n < (xs.length : Int)) :
    arrayGet (xs.set n.toNat a) i = if i = n then some a else arrayGet xs i := by
  unfold arrayGet
  by_cases hi : 0 ≤ i
  · have hlt : n.toNat < xs.length := by omega
    by_cases hin : i = n
    · subst hin
      simp [hi, List.getElem?_set, hlt]
    · have hne : n.toNat ≠ i.toNat := by omega
      simp [hi, hin, List.getElem?_set, hne]
  · have hin : i ≠ n := by omega
    simp [hi, hin]

theorem Board.column_ok {b : Board} (hwf : b.WellFormed) {x : Int} (h0 : 0 ≤ x)
    (h1 : x < (b.width : Int)) :
    ∃ col, b.column x = .ok col ∧ arrayGet b.pieces x = some col ∧ col.length = b.height := by
  obtain ⟨col, hcol⟩ := arrayGet_isSome b.pieces h0 (by rw [hwf.1]; exact h1)
  exact ⟨col, by simp [Board.column, hcol], hcol, hwf.2 col (arrayGet_mem hcol)⟩

theorem Board.column_eq_ok {b : Board} {x : Int} {col : List (Option Piece)}
    (h : b.column x = .ok col) : arrayGet b.pieces x = some col := by
  unfold Board.column at h
  split at h
  · rename_i c hc
    cases h
    exact hc
  · cases h

theorem Board.isEmpty_eq_map (b : Board) (x y : Int) :
    b.isEmpty x y = (b.getPiece x y).map fun o => o == none := by
  unfold Board.isEmpty Board.getPiece
  cases b.column x <;> rfl

theorem Board.getPiece_ok {b : Board} (hwf : b.WellFormed) {x : Int} (y : Int) (h0 : 0 ≤ x)
    (h1 : x < (b.width : Int)) : ∃ o, b.getPiece x y = .ok o := by
  obtain ⟨col, hcol, -, -⟩ := Board.column_ok hwf h0 h1
  exact ⟨_, by simp only [Board.getPiece, hcol]; rfl⟩

theorem Board.getPiece_some_validPos {b : Board} (hwf : b.WellFormed) {x y : Int} {p : Piece}
    (h : b.getPiece x y = .ok (some p)) : b.validPos x y = true := by
  unfold Board.getPiece at h
  cases hc : b.column x with
  | error e => rw [hc] at h; cases h
  | ok col =>
    rw [hc] at h
    have hcol := Board.column_eq_ok hc
    have hx := arrayGet_eq_some hcol
    have hlen := hwf.2 col (arrayGet_mem hcol)
    have hj : (arrayGet col y).join = some p := by
      simpa [Except.bind] using h
    cases hy : arrayGet col y with
    | none => rw [hy] at hj; cases hj
    | some o =>
      have hy2 := arrayGet_eq_some hy
      have hw := hwf.1
      simp only [Board.validPos, Bool.and_eq_true, decide_eq_true_eq]
      omega

/-! ## Forward direction and promotion row -/

theorem Piece.getForwards_white (x y : Int) (k : Bool) :
    (Piece.mk x y Color.white k).getForwards = some 1 := rfl

theorem Piece.getForwards_black (x y : Int) (k : Bool) :
    (Piece.mk x y Color.black k).getForwards = some (-1) := rfl

theorem Piece.getForwards_cases (p : Piece) :
    (p.color = Color.white ∧ p.getForwards = some 1) ∨
    (p.color = Color.black ∧ p.getForwards = some (-1)) := by
  obtain ⟨x, y, c, k⟩ := p
  cases c
  · exact Or.inl ⟨rfl, rfl⟩
  · exact Or.inr ⟨rfl, rfl⟩

theorem sign_of_natAbs_two {d : Int} (h : d.natAbs = 2) : Int.sign d = d / 2 := by
  have h2 : d = 2 ∨ d = -2 := by omega
  rcases h2 with h2 | h2 <;> subst h2 <;> decide

theorem sign_neg_eq_one_iff (d : Int) : Int.sign (-d) = 1 ↔ d < 0 := by
  rw [Int.sign_eq_one_iff_pos]
  omega

theorem sign_neg_eq_neg_one_iff (d : Int) : Int.sign (-d) = -1 ↔ 0 < d := by
  rw [Int.sign_eq_neg_one_iff_neg]
  omega

/-- The direction test of `Piece.canMove` for a piece and a target row inside the
board: the move passes it exactly when the piece is a king or the row is closer
to the promotion row. -/
theorem Piece.direction_test (b : Board) (p : Piece) (y : Int)
    (hy0 : 0 ≤ y) (hy1 : y < (b.height : Int)) (hp0 : 0 ≤ p.y) (hp1 : p.y < (b.height : Int)) :
    (some (Int.sign (-(y - p.y))) != p.getForwards && !p.isKing) = false ↔
      (p.isKing = true ∨ p.towardPromotion b y) := by
  unfold Piece.towardPromotion Piece.promotionRow
  rcases p.getForwards_cases with ⟨-, hf⟩ | ⟨-, hf⟩
  · rw [hf]
    have hs := sign_neg_eq_one_iff (y - p.y)
    generalize Int.sign (-(y - p.y)) = s at hs ⊢
    have key : ((some s != some (1 : Int)) && !p.isKing) = false ↔ (p.isKing = true ∨ s = 1) := by
      cases p.isKing <;> simp
    rw [key, hs]
    apply or_congr Iff.rfl
    simp only [beq_self_eq_true, if_true]
    omega
  · rw [hf]
    have hs := sign_neg_eq_neg_one_iff (y - p.y)
    generalize Int.sign (-(y - p.y)) = s at hs ⊢
    have key : ((some s != some (-1 : Int)) && !p.isKing) = false ↔ (p.isKing = true ∨ s = -1) := by
      cases p.isKing <;> simp
    have hne : (some (-1 : Int) == some 1) = false := by decide
    rw [key, hs, hne]
    apply or_congr Iff.rfl
    simp only [Bool.false_eq_true, if_false]
    omega

/-! ## Legality of a move -/

theorem Board.validPos_iff (b : Board) (x y : Int) :
    b.validPos x y = true ↔ 0 ≤ x ∧ x < (b.width : Int) ∧ 0 ≤ y ∧ y < (b.height : Int) := by
  simp only [Board.validPos, Bool.and_eq_true, decide_eq_true_eq, ge_iff_le]
  tauto

theorem quotientIsOne_iff (yDist xDist : Nat) :
    quotientIsOne yDist xDist = true ↔ xDist ≠ 0 ∧ yDist = xDist := by
  simp [quotientIsOne]

/-- The result of `Piece.canMove` for a piece whose stored position is inside a
well-formed board: no error, and both flags described by the rules. The midpoint
of a jump is written `((p.x + x) / 2, (p.y + y) / 2)`. -/
theorem Piece.canMove_resolved {b : Board} {p : Piece} (hwf : b.WellFormed)
    (hp : b.validPos p.x p.y = true) (x y : Int) :
    ∃ legal capture, p.canMove b x y = .ok (legal, capture) ∧
      (legal = true ↔
        b.validPos x y = true ∧ b.isEmpty x y = .ok true ∧
        (x - p.x).natAbs = (y - p.y).natAbs ∧
        (p.isKing = true ∨ p.towardPromotion b y) ∧
        ((x - p.x).natAbs = 1 ∨
          ((x - p.x).natAbs = 2 ∧
            ∃ q, b.getPiece ((p.x + x) / 2) ((p.y + y) / 2) = .ok (some q) ∧ q.color ≠ p.color))) ∧
      (capture = true ↔ legal = true ∧ (x - p.x).natAbs = 2) := by
  have hpb := (b.validPos_iff p.x p.y).mp hp
  unfold Piece.canMove
  dsimp only
  cases hv : b.validPos x y with
  | false => exact ⟨false, false, by simp, by simp, by simp⟩
  | true =>
    have hvb := (b.validPos_iff x y).mp hv
    obtain ⟨o, ho⟩ := Board.getPiece_ok hwf y hvb.1 hvb.2.1
    rw [Board.isEmpty_eq_map, ho]
    cases o with
    | some q => exact ⟨false, false, by simp [Except.map, Except.bind], by simp [Except.map], by simp⟩
    | none =>
      have hdir := Piece.direction_test b p y hvb.2.2.1 hvb.2.2.2 hpb.2.2.1 hpb.2.2.2
      have hemp : ((none : Option Piece) == none) = true := rfl
      cases hq : quotientIsOne (y - p.y).natAbs (x - p.x).natAbs with
      | false =>
        have hq2 : ¬ ((x - p.x).natAbs ≠ 0 ∧ (y - p.y).natAbs = (x - p.x).natAbs) := by
          rw [← quotientIsOne_iff, hq]; simp
        refine ⟨false, false, ?_, ?_, by simp⟩
        · simp only [Except.map, Except.bind, hemp, Bool.not_true, Bool.not_false,
            Bool.false_eq_true, if_true, if_false]
        · simp only [Bool.false_eq_true, false_iff]
          rintro ⟨-, -, h3, -, h5⟩
          apply hq2
          constructor
          · rcases h5 with h5 | ⟨h5, -⟩ <;> omega
          · exact h3.symm
      | true =>
        have hq2 := (quotientIsOne_iff _ _).mp hq
        cases hd : (some (Int.sign (-(y - p.y))) != p.getForwards && !p.isKing) with
        | true =>
          have hnd : ¬ (p.isKing = true ∨ p.towardPromotion b y) := by
            rw [← hdir, hd]; simp
          refine ⟨false, false, ?_, ?_, by simp⟩
          · simp only [Except.map, Except.bind, hemp, Bool.not_true, Bool.not_false,
              Bool.false_eq_true, if_true, if_false]
          · simp only [Bool.false_eq_true, false_iff]
            rintro ⟨-, -, -, h4, -⟩
            exact hnd h4
        | false =>
          have hyd : (p.isKing = true ∨ p.towardPromotion b y) := hdir.mp hd
          cases hc : ((x - p.x).natAbs == 2) with
          | false =>
            have hc2 : (x - p.x).natAbs ≠ 2 := by simpa using hc
            refine ⟨(x - p.x).natAbs == 1, false, ?_, ?_, ?_⟩
            · simp only [Except.map, Except.bind, hemp, Bool.not_true, Bool.not_false,
                Bool.false_eq_true, if_true, if_false, Bool.or_false]
            · rw [beq_iff_eq]
              constructor
              · intro h1
                exact ⟨rfl, rfl, hq2.2.symm, hyd, Or.inl h1⟩
              · rintro ⟨-, -, -, -, h5 | ⟨h5, -⟩⟩
                · exact h5
                · exact absurd h5 hc2
            · simp only [Bool.false_eq_true, false_iff]
              rintro ⟨-, h⟩
              exact hc2 h
          | true =>
            have hc2 : (x - p.x).natAbs = 2 := by simpa using hc
            have hc3 : (y - p.y).natAbs = 2 := by omega
            have hmx : p.x + Int.sign (x - p.x) = (p.x + x) / 2 := by
              rw [sign_of_natAbs_two hc2]; omega
            have hmy : p.y + Int.sign (y - p.y) = (p.y + y) / 2 := by
              rw [sign_of_natAbs_two hc3]; omega
            rw [hmx, hmy]
            obtain ⟨m, hm⟩ := Board.getPiece_ok hwf ((p.y + y) / 2)
              (show 0 ≤ (p.x + x) / 2 by omega) (show (p.x + x) / 2 < (b.width : Int) by omega)
            rw [hm]
            cases m with
            | none =>
              refine ⟨false, false, ?_, ?_, by simp⟩
              · simp only [Except.map, Except.bind, hemp, Bool.not_true, Bool.not_false,
                  Bool.false_eq_true, if_true, if_false]
              · simp only [Bool.false_eq_true, false_iff]
                rintro ⟨-, -, -, -, h5 | ⟨-, q, hq1, -⟩⟩
                · omega
                · cases hq1
            | some c =>
              by_cases hcol : c.color = p.color
              · refine ⟨false, false, ?_, ?_, by simp⟩
                · simp only [Except.map, Except.bind, hemp, Bool.not_true, Bool.not_false,
                    Bool.false_eq_true, if_true, if_false, hcol]
                · simp only [Bool.false_eq_true, false_iff]
                  rintro ⟨-, -, -, -, h5 | ⟨-, q, hq1, hq3⟩⟩
                  · omega
                  · cases hq1
                    exact hq3 hcol
              · refine ⟨true, true, ?_, ?_, by simp [hc2]⟩
                · simp only [Except.map, Except.bind, hemp, Bool.not_true, Bool.not_false,
                    Bool.false_eq_true, if_true, if_false, hcol, Bool.or_true]
                · exact ⟨fun _ => ⟨rfl, rfl, hq2.2.symm, hyd, Or.inr ⟨hc2, c, rfl, hcol⟩⟩,
                    fun _ => rfl⟩

/-- C1: for a piece on a well-formed board and any integer target, `canMove`
returns without error; `legal` is true exactly when the target is in bounds and
empty, `|dx| = |dy|`, the piece is a king or the move goes toward its promotion
row, and the step is 1 or it is 2 over a piece of the other color at the midpoint;
`capture` is true exactly when the move is legal with `|dx| = 2`; no move with
`|dx| ≥ 3` is legal. -/
theorem canMove_legal_iff (b : Board) (p : Piece) (x y : Int)
    (hwf : b.WellFormed) (hp : b.Holds p) :
    ∃ legal capture, p.canMove b x y = .ok (legal, capture) ∧
      (legal = true ↔
        b.validPos x y = true ∧ b.isEmpty x y = .ok true ∧
        (x - p.x).natAbs = (y - p.y).natAbs ∧
        (p.isKing = true ∨ p.towardPromotion b y) ∧
        ((x - p.x).natAbs = 1 ∨
          ((x - p.x).natAbs = 2 ∧
            ∃ q, b.getPiece ((p.x + x) / 2) ((p.y + y) / 2) = .ok (some q) ∧ q.color ≠ p.color))) ∧
      (capture = true ↔ legal = true ∧ (x - p.x).natAbs = 2) ∧
      (3 ≤ (x - p.x).natAbs → legal = false) := by
  obtain ⟨legal, capture, h1, h2, h3⟩ :=
    Piece.canMove_resolved hwf (Board.getPiece_some_validPos hwf hp) x y
  refine ⟨legal, capture, h1, h2, h3, ?_⟩
  intro h
  cases hl : legal with
  | false => rfl
  | true =>
    obtain ⟨-, -, -, -, h5⟩ := h2.mp hl
    rcases h5 with h5 | ⟨h5, -⟩ <;> omega

/-- C1 at the capture of the specification: black at (3,4) jumps over white at
(4,5) to (5,6) on an otherwise empty 8x8 board. -/
theorem canMove_legal_iff_witness :
    (Board.ofPieces 8 8 [⟨3, 4, Color.black, false⟩, ⟨4, 5, Color.white, false⟩]).WellFormed ∧
    (Board.ofPieces 8 8 [⟨3, 4, Color.black, false⟩, ⟨4, 5, Color.white, false⟩]).Holds
      ⟨3, 4, Color.black, false⟩ ∧
    ∃ legal capture,
      Piece.canMove (Board.ofPieces 8 8 [⟨3, 4, Color.black, false⟩, ⟨4, 5, Color.white, false⟩])
        ⟨3, 4, Color.black, false⟩ 5 6 = .ok (legal, capture) ∧ legal = true ∧ capture = true := by
  refine ⟨by decide, by decide, ?_⟩
  obtain ⟨legal, capture, h1, -, -, -⟩ :=
    canMove_legal_iff (Board.ofPieces 8 8 [⟨3, 4, Color.black, false⟩, ⟨4, 5, Color.white, false⟩])
      ⟨3, 4, Color.black, false⟩ 5 6 (by decide) (by decide)
  refine ⟨legal, capture, h1, ?_⟩
  have h : Piece.canMove (Board.ofPieces 8 8 [⟨3, 4, Color.black, false⟩, ⟨4, 5, Color.white, false⟩])
      ⟨3, 4, Color.black, false⟩ 5 6 = .ok (true, true) := by decide
  rw [h] at h1
  cases h1
  exact ⟨rfl, rfl⟩

/-- C2: on a well-formed board, for any piece and target, `canMove` returns
`(false, false)` without error when the target is out of bounds, or occupied, or
not on a diagonal from the piece, or equal to the position of the piece. -/
theorem canMove_rejects (b : Board) (p : Piece) (x y : Int) (hwf : b.WellFormed)
    (h : b.validPos x y = false ∨ b.isEmpty x y = .ok false ∨
      (x - p.x).natAbs ≠ (y - p.y).natAbs ∨ (x = p.x ∧ y = p.y)) :
    p.canMove b x y = .ok (false, false) := by
  unfold Piece.canMove
  dsimp only
  cases hv : b.validPos x y with
  | false => simp
  | true =>
    have hvb := (b.validPos_iff x y).mp hv
    obtain ⟨o, ho⟩ := Board.getPiece_ok hwf y hvb.1 hvb.2.1
    rw [Board.isEmpty_eq_map, ho] at h ⊢
    cases o with
    | some q => simp [Except.map, Except.bind]
    | none =>
      have hq : quotientIsOne (y - p.y).natAbs (x - p.x).natAbs = false := by
        cases hq : quotientIsOne (y - p.y).natAbs (x - p.x).natAbs with
        | false => rfl
        | true =>
          have hq2 := (quotientIsOne_iff _ _).mp hq
          rcases h with h | h | h | ⟨h1, h2⟩
          · rw [hv] at h; cases h
          · simp [Except.map] at h
          · exact absurd hq2.2.symm h
          · subst h1; subst h2; simp at hq2
      have hemp : ((none : Option Piece) == none) = true := rfl
      simp only [Except.map, Except.bind, hemp, hq, Bool.not_true, Bool.not_false,
        Bool.false_eq_true, if_true, if_false]

/-- C2 at the own cell of a piece on the initial 8x8 board (zero displacement). -/
theorem canMove_rejects_witness :
    (Board.new 8 8).WellFormed ∧
    Piece.canMove (Board.new 8 8) ⟨1, 5, Color.white, false⟩ 1 5 = .ok (false, false) :=
  ⟨by decide, canMove_rejects (Board.new 8 8) ⟨1, 5, Color.white, false⟩ 1 5 (by decide)
    (Or.inr (Or.inr (Or.inr ⟨rfl, rfl⟩)))⟩

/-- C3, as stated, fails: on the initial 8x8 board the white piece at (1,5) is
not a king, its forward sign is `+1`, and its move to (0,4), with `dy = -1 < 0`,
is legal. -/
theorem forward_white_counterexample :
    (Board.new 8 8).Holds ⟨1, 5, Color.white, false⟩ ∧
    Piece.getForwards ⟨1, 5, Color.white, false⟩ = some 1 ∧
    Piece.isKing ⟨1, 5, Color.white, false⟩ = false ∧
    (4 : Int) - (Piece.mk 1 5 Color.white false).y < 0 ∧
    Piece.canMove (Board.new 8 8) ⟨1, 5, Color.white, false⟩ 0 4 = .ok (true, false) := by
  decide

/-- C3 amended: a piece that is not a king and whose forward sign is `+1` never
gets `legal = true` for a target with `dy > 0`, on any board; and on some board
a king of the same color does get `legal = true` for a target with `dy > 0`. -/
theorem backward_needs_king (b : Board) (p : Piece) (x y : Int)
    (hf : p.getForwards = some 1) (hk : p.isKing = false) (hd : 0 < y - p.y) :
    (∀ capture, p.canMove b x y ≠ .ok (true, capture)) ∧
    ∃ (b2 : Board) (k : Piece) (x2 y2 : Int),
      b2.WellFormed ∧ b2.Holds k ∧ k.color = p.color ∧ k.isKing = true ∧ 0 < y2 - k.y ∧
      k.canMove b2 x2 y2 = .ok (true, false) := by
  constructor
  · intro capture
    have hs : Int.sign (-(y - p.y)) ≠ 1 := by
      rw [Ne, sign_neg_eq_one_iff]
      omega
    have hdt : (some (Int.sign (-(y - p.y))) != p.getForwards && !p.isKing) = true := by
      rw [hf, hk]
      generalize Int.sign (-(y - p.y)) = s at hs
      simp [hs]
    unfold Piece.canMove
    dsimp only
    rw [hdt]
    cases b.validPos x y with
    | false => simp
    | true =>
      cases b.isEmpty x y with
      | error e => simp [Except.bind]
      | ok e =>
        cases e with
        | false => simp [Except.bind]
        | true =>
          cases quotientIsOne (y - p.y).natAbs (x - p.x).natAbs <;> simp [Except.bind]
  · have hc : p.color = Color.white := by
      rcases p.getForwards_cases with ⟨h, -⟩ | ⟨-, h⟩
      · exact h
      · rw [hf] at h
        exact absurd h (by decide)
    refine ⟨Board.ofPieces 8 8 [⟨3, 3, Color.white, true⟩], ⟨3, 3, Color.white, true⟩, 4, 4,
      by decide, by decide, hc.symm, rfl, by decide, by decide⟩

/-- C3 amended, at a white piece alone at (3,3) on an 8x8 board and the target
(4,4). -/
theorem backward_needs_king_witness :
    Piece.getForwards ⟨3, 3, Color.white, false⟩ = some 1 ∧
    Piece.isKing ⟨3, 3, Color.white, false⟩ = false ∧
    (0 : Int) < 4 - (Piece.mk 3 3 Color.white false).y ∧
    (∀ capture, Piece.canMove (Board.ofPieces 8 8 [⟨3, 3, Color.white, false⟩])
      ⟨3, 3, Color.white, false⟩ 4 4 ≠ .ok (true, capture)) :=
  ⟨rfl, rfl, by decide,
    (backward_needs_king (Board.ofPieces 8 8 [⟨3, 3, Color.white, false⟩])
      ⟨3, 3, Color.white, false⟩ 4 4 rfl rfl (by decide)).1⟩

/-- C4, as stated, fails: a white piece that is not a king, alone at (3,3) on an
8x8 board, is refused the diagonal step of magnitude 1 to the empty in-bounds
cell (4,4). -/
theorem step_counterexample :
    (Board.ofPieces 8 8 [⟨3, 3, Color.white, false⟩]).Holds ⟨3, 3, Color.white, false⟩ ∧
    (Board.ofPieces 8 8 [⟨3, 3, Color.white, false⟩]).validPos 4 4 = true ∧
    (Board.ofPieces 8 8 [⟨3, 3, Color.white, false⟩]).isEmpty 4 4 = .ok true ∧
    ((4 : Int) - 3).natAbs = 1 ∧
    Piece.canMove (Board.ofPieces 8 8 [⟨3, 3, Color.white, false⟩])
      ⟨3, 3, Color.white, false⟩ 4 4 = .ok (false, false) := by
  decide

/-- C4 amended: for a piece on a well-formed board and an in-bounds empty target
in a direction the piece may take (any for a king, toward its promotion row
otherwise), a diagonal step of magnitude 1 gives `(true, false)`, and a diagonal
step of magnitude 2 gives `(true, true)` when the intermediate cell holds a piece
of the other color and `(false, false)` when it does not. -/
theorem step_and_jump (b : Board) (p : Piece) (x y : Int)
    (hwf : b.WellFormed) (hp : b.Holds p)
    (hv : b.validPos x y = true) (he : b.isEmpty x y = .ok true)
    (hdir : p.isKing = true ∨ p.towardPromotion b y) :
    ((x - p.x).natAbs = 1 → (y - p.y).natAbs = 1 → p.canMove b x y = .ok (true, false)) ∧
    ((x - p.x).natAbs = 2 → (y - p.y).natAbs = 2 →
      ((∃ q, b.getPiece ((p.x + x) / 2) ((p.y + y) / 2) = .ok (some q) ∧ q.color ≠ p.color) →
        p.canMove b x y = .ok (true, true)) ∧
      ((¬ ∃ q, b.getPiece ((p.x + x) / 2) ((p.y + y) / 2) = .ok (some q) ∧ q.color ≠ p.color) →
        p.canMove b x y = .ok (false, false))) := by
  obtain ⟨legal, capture, h1, h2, h3⟩ :=
    Piece.canMove_resolved hwf (Board.getPiece_some_validPos hwf hp) x y
  rw [h1]
  refine ⟨fun hx hy => ?_, fun hx hy => ⟨fun hq => ?_, fun hq => ?_⟩⟩
  · have hl : legal = true := h2.mpr ⟨hv, he, by omega, hdir, Or.inl hx⟩
    have hc : capture = false := by
      cases hc : capture with
      | false => rfl
      | true =>
        have := (h3.mp hc).2
        omega
    rw [hl, hc]
  · have hl : legal = true := h2.mpr ⟨hv, he, by omega, hdir, Or.inr ⟨hx, hq⟩⟩
    have hc : capture = true := h3.mpr ⟨hl, hx⟩
    rw [hl, hc]
  · have hl : legal = false := by
      cases hl : legal with
      | false => rfl
      | true =>
        obtain ⟨-, -, -, -, h5⟩ := h2.mp hl
        rcases h5 with h5 | ⟨-, h5⟩
        · omega
        · exact absurd h5 hq
    have hc : capture = false := by
      cases hc : capture with
      | false => rfl
      | true =>
        have := (h3.mp hc).1
        rw [hl] at this
        cases this
    rw [hl, hc]

/-- C4 amended, at the capture of the specification: black at (3,4), white at
(4,5), target (5,6). -/
theorem step_and_jump_witness :
    (Board.ofPieces 8 8 [⟨3, 4, Color.black, false⟩, ⟨4, 5, Color.white, false⟩]).WellFormed ∧
    (Board.ofPieces 8 8 [⟨3, 4, Color.black, false⟩, ⟨4, 5, Color.white, false⟩]).Holds
      ⟨3, 4, Color.black, false⟩ ∧
    Piece.canMove (Board.ofPieces 8 8 [⟨3, 4, Color.black, false⟩, ⟨4, 5, Color.white, false⟩])
      ⟨3, 4, Color.black, false⟩ 5 6 = .ok (true, true) :=
  ⟨by decide, by decide,
    ((step_and_jump (Board.ofPieces 8 8 [⟨3, 4, Color.black, false⟩, ⟨4, 5, Color.white, false⟩])
      ⟨3, 4, Color.black, false⟩ 5 6 (by decide) (by decide) (by decide) (by decide)
      (by decide)).2 (by decide) (by decide)).1 ⟨⟨4, 5, Color.white, false⟩, by decide, by decide⟩⟩

/-! ## Stores into the grid -/

theorem Board.setPiece_ok {b : Board} (hwf : b.WellFormed) {x y : Int}
    (hv : b.validPos x y = true) (v : Option Piece) : ∃ b2, b.setPiece x y v = .ok b2 := by
  have hvb := (b.validPos_iff x y).mp hv
  obtain ⟨col, hcol, -, hlen⟩ := Board.column_ok hwf hvb.1 hvb.2.1
  have hy : 0 ≤ y ∧ y < (col.length : Int) := by rw [hlen]; exact hvb.2.2
  simp only [Board.setPiece, hcol, Except.bind, hy, and_self, if_true]
  exact ⟨_, rfl⟩

theorem Board.setPiece_inv {b b2 : Board} {x y : Int} {v : Option Piece}
    (h : b.setPiece x y v = .ok b2) :
    ∃ col, arrayGet b.pieces x = some col ∧ 0 ≤ y ∧ y < (col.length : Int) ∧
      b2 = { b with pieces := (b.pieces.set x.toNat
        (col.set y.toNat (v.map fun p => { p with x := x, y := y }))) } := by
  unfold Board.setPiece at h
  cases hc : b.column x with
  | error e => rw [hc] at h; cases h
  | ok col =>
    rw [hc] at h
    simp only [Except.bind] at h
    split at h
    · rename_i hy
      cases h
      exact ⟨col, Board.column_eq_ok hc, hy.1, hy.2, rfl⟩
    · cases h

theorem Board.setPiece_dims {b b2 : Board} {x y : Int} {v : Option Piece}
    (h : b.setPiece x y v = .ok b2) : b2.width = b.width ∧ b2.height = b.height := by
  obtain ⟨col, -, -, -, rfl⟩ := Board.setPiece_inv h
  exact ⟨rfl, rfl⟩

theorem Board.setPiece_wellFormed {b b2 : Board} {x y : Int} {v : Option Piece}
    (h : b.setPiece x y v = .ok b2) (hwf : b.WellFormed) : b2.WellFormed := by
  obtain ⟨col, hcol, -, -, rfl⟩ := Board.setPiece_inv h
  refine ⟨by simp [hwf.1], ?_⟩
  intro c hc
  rcases List.mem_or_eq_of_mem_set hc with hc | hc
  · exact hwf.2 c hc
  · rw [hc, List.length_set]
    exact hwf.2 col (arrayGet_mem hcol)

theorem Board.setPiece_getPiece {b b2 : Board} {x y : Int} {v : Option Piece}
    (h : b.setPiece x y v = .ok b2) (i j : Int) :
    b2.getPiece i j =
      if i = x ∧ j = y then .ok (v.map fun p => { p with x := x, y := y })
      else b.getPiece i j := by
  obtain ⟨col, hcol, hy0, hy1, rfl⟩ := Board.setPiece_inv h
  have hx := arrayGet_eq_some hcol
  have hx1 : x < (b.pieces.length : Int) := by omega
  unfold Board.getPiece Board.column
  dsimp only
  rw [arrayGet_set b.pieces _ i hx.1 hx1]
  by_cases hi : i = x
  · subst hi
    simp only [if_true, hcol, Except.bind, true_and]
    rw [arrayGet_set col _ j hy0 hy1]
    by_cases hj : j = y
    · simp [hj]
    · simp [hj]
  · simp only [hi, if_false, false_and]

theorem Board.removePiece_getPiece {b b2 : Board} {x y : Int}
    (h : b.removePiece x y = .ok b2) (i j : Int) :
    b2.getPiece i j = if i = x ∧ j = y then .ok none else b.getPiece i j :=
  Board.setPiece_getPiece h i j

theorem Piece.afterMove_fields (b : Board) (p : Piece) (x y : Int) :
    (p.afterMove b x y).x = x ∧ (p.afterMove b x y).y = y ∧
    (p.afterMove b x y).color = p.color ∧
    ((p.afterMove b x y).king = true ↔ p.king = true ∨ y = p.promotionRow b) := by
  unfold Piece.afterMove
  by_cases h : y = p.promotionRow b
  · simp [h]
  · simp [h]

/-- The result of `Piece.move` when origin and target are inside a well-formed
board and a step of 2 columns is also a step of 2 rows: no error, and every cell
of the new board is determined. -/
theorem Piece.move_resolved {b : Board} {p : Piece} (hwf : b.WellFormed)
    (hp : b.validPos p.x p.y = true) {x y : Int} (hv : b.validPos x y = true)
    (hd : (x - p.x).natAbs = 2 → (y - p.y).natAbs = 2) :
    ∃ b2, p.move b x y = .ok (b2, p.afterMove b x y, (x - p.x).natAbs == 2) ∧
      b2.WellFormed ∧ b2.width = b.width ∧ b2.height = b.height ∧
      ∀ i j : Int, b2.getPiece i j =
        if i = x ∧ j = y then .ok (some (p.afterMove b x y))
        else if i = p.x ∧ j = p.y then .ok none
        else if (x - p.x).natAbs = 2 ∧ i = (p.x + x) / 2 ∧ j = (p.y + y) / 2 then .ok none
        else b.getPiece i j := by
  have hpb := (b.validPos_iff p.x p.y).mp hp
  have hvb := (b.validPos_iff x y).mp hv
  have hp1 : ∀ q : Piece, (if y == p.promotionRow b then { p with king := true } else p) = q →
      q.x = p.x ∧ q.y = p.y := by
    intro q hq
    subst hq
    split <;> exact ⟨rfl, rfl⟩
  -- the board after the optional removal of the jumped piece
  have step1 : ∃ b1, (if ((x - p.x).natAbs == 2) = true then
        b.removePiece (p.x + Int.sign (x - p.x)) (p.y + Int.sign (y - p.y)) else .ok b) = .ok b1 ∧
      b1.WellFormed ∧ b1.width = b.width ∧ b1.height = b.height ∧
      ∀ i j : Int, b1.getPiece i j =
        if (x - p.x).natAbs = 2 ∧ i = (p.x + x) / 2 ∧ j = (p.y + y) / 2 then .ok none
        else b.getPiece i j := by
    by_cases hc : (x - p.x).natAbs = 2
    · have hc3 := hd hc
      have hmx : p.x + Int.sign (x - p.x) = (p.x + x) / 2 := by
        rw [sign_of_natAbs_two hc]; omega
      have hmy : p.y + Int.sign (y - p.y) = (p.y + y) / 2 := by
        rw [sign_of_natAbs_two hc3]; omega
      have hmv : b.validPos ((p.x + x) / 2) ((p.y + y) / 2) = true := by
        rw [Board.validPos_iff]; omega
      obtain ⟨b1, hb1⟩ := Board.setPiece_ok hwf hmv none
      refine ⟨b1, ?_, Board.setPiece_wellFormed hb1 hwf, (Board.setPiece_dims hb1).1,
        (Board.setPiece_dims hb1).2, ?_⟩
      · rw [hmx, hmy]
        simp only [hc, beq_self_eq_true, if_true]
        exact hb1
      · intro i j
        rw [Board.removePiece_getPiece hb1 i j]
        simp only [hc, true_and]
    · refine ⟨b, ?_, hwf, rfl, rfl, ?_⟩
      · have : ((x - p.x).natAbs == 2) = false := by simpa using hc
        simp only [this, Bool.false_eq_true, if_false]
      · intro i j
        simp only [hc, false_and, if_false]
  obtain ⟨b1, hb1, hwf1, hw1, hh1, hg1⟩ := step1
  have hpv1 : b1.validPos p.x p.y = true := by
    rw [Board.validPos_iff, hw1, hh1]; exact hpb
  obtain ⟨b2, hb2⟩ := Board.setPiece_ok hwf1 hpv1 none
  have hwf2 := Board.setPiece_wellFormed hb2 hwf1
  have hdims2 := Board.setPiece_dims hb2
  have hv2 : b2.validPos x y = true := by
    rw [Board.validPos_iff, hdims2.1, hdims2.2, hw1, hh1]; exact hvb
  obtain ⟨b3, hb3⟩ := Board.setPiece_ok hwf2 hv2
    (some (if y == p.promotionRow b then { p with king := true } else p))
  have hdims3 := Board.setPiece_dims hb3
  refine ⟨b3, ?_, Board.setPiece_wellFormed hb3 hwf2, by rw [hdims3.1, hdims2.1, hw1],
    by rw [hdims3.2, hdims2.2, hh1], ?_⟩
  · unfold Piece.move
    dsimp only
    rw [hb1]
    simp only [Except.bind]
    rw [(hp1 _ rfl).1, (hp1 _ rfl).2]
    unfold Board.removePiece
    rw [hb2]
    simp only [hb3]
    rfl
  · intro i j
    rw [Board.setPiece_getPiece hb3 i j, Board.removePiece_getPiece hb2 i j, hg1 i j]
    rfl

theorem Piece.move_piece {b : Board} {p : Piece} {x y : Int} {r : Board × Piece × Bool}
    (h : p.move b x y = .ok r) :
    r.2.1 = p.afterMove b x y ∧ r.2.2 = ((x - p.x).natAbs == 2) := by
  unfold Piece.move at h
  dsimp only at h
  generalize (if ((x - p.x).natAbs == 2) = true then
    b.removePiece (p.x + Int.sign (x - p.x)) (p.y + Int.sign (y - p.y)) else .ok b) = e1 at h
  cases e1 with
  | error e => cases h
  | ok b1 =>
    simp only [Except.bind] at h
    split at h
    · cases h
    · rename_i b2 hb2
      split at h
      · cases h
      · cases h
        exact ⟨rfl, rfl⟩

theorem Piece.moveAll_king (ts : List (Int × Int)) :
    ∀ (b : Board) (p : Piece) (r : Board × Piece),
      p.isKing = true → p.moveAll b ts = .ok r → r.2.isKing = true := by
  induction ts with
  | nil =>
    intro b p r hk h
    cases h
    exact hk
  | cons t rest ih =>
    intro b p r hk h
    obtain ⟨x, y⟩ := t
    unfold Piece.moveAll at h
    cases hm : p.move b x y with
    | error e => rw [hm] at h; cases h
    | ok m =>
      rw [hm] at h
      refine ih m.1 m.2.1 r ?_ h
      rw [(Piece.move_piece hm).1]
      exact ((p.afterMove_fields b x y).2.2.2).mpr (Or.inl hk)

/-- C5: for a piece on a well-formed board and a target that `canMove` reports
legal, `move` returns the capture flag of `canMove`; afterwards the target cell
holds the piece with stored position `(x, y)`, the origin cell is empty, the
midpoint cell is empty when the move was a capture, and every other cell reads as
before. -/
theorem move_effect (b : Board) (p : Piece) (x y : Int) (capture : Bool)
    (hwf : b.WellFormed) (hp : b.Holds p) (hlegal : p.canMove b x y = .ok (true, capture)) :
    ∃ b2 p2, p.move b x y = .ok (b2, p2, capture) ∧
      p2.x = x ∧ p2.y = y ∧ p2.color = p.color ∧
      b2.getPiece x y = .ok (some p2) ∧
      b2.getPiece p.x p.y = .ok none ∧
      (capture = true → b2.getPiece ((p.x + x) / 2) ((p.y + y) / 2) = .ok none) ∧
      ∀ i j : Int, ¬ (i = x ∧ j = y) → ¬ (i = p.x ∧ j = p.y) →
        ¬ (capture = true ∧ i = (p.x + x) / 2 ∧ j = (p.y + y) / 2) →
        b2.getPiece i j = b.getPiece i j := by
  have hpv := Board.getPiece_some_validPos hwf hp
  obtain ⟨legal, cap, h1, h2, h3⟩ := Piece.canMove_resolved hwf hpv x y
  rw [hlegal] at h1
  cases h1
  obtain ⟨hv, -, hdiag, -, hstep⟩ := h2.mp rfl
  have hcap : capture = ((x - p.x).natAbs == 2) := by
    cases hc : capture with
    | true => have := (h3.mp hc).2; simp [this]
    | false =>
      have : ¬ (x - p.x).natAbs = 2 := fun h => by
        have := h3.mpr ⟨rfl, h⟩
        rw [hc] at this
        cases this
      simp [this]
  obtain ⟨b2, hm, -, -, -, hg⟩ := Piece.move_resolved hwf hpv hv (fun h => by omega)
  have hne : ¬ (p.x = x ∧ p.y = y) := by
    rintro ⟨hx, -⟩
    rcases hstep with h | ⟨h, -⟩ <;> omega
  have hf := p.afterMove_fields b x y
  refine ⟨b2, p.afterMove b x y, by rw [hcap]; exact hm, hf.1, hf.2.1, hf.2.2.1, ?_, ?_, ?_, ?_⟩
  · rw [hg x y]
    simp
  · rw [hg p.x p.y]
    simp [hne]
  · intro hc
    have hc2 : (x - p.x).natAbs = 2 := (h3.mp hc).2
    rw [hg]
    have h1 : ¬ ((p.x + x) / 2 = x ∧ (p.y + y) / 2 = y) := by omega
    have h2 : ¬ ((p.x + x) / 2 = p.x ∧ (p.y + y) / 2 = p.y) := by omega
    simp [h1, h2, hc2]
  · intro i j n1 n2 n3
    rw [hg i j]
    have n4 : ¬ ((x - p.x).natAbs = 2 ∧ i = (p.x + x) / 2 ∧ j = (p.y + y) / 2) := by
      rintro ⟨h, hi, hj⟩
      exact n3 ⟨h3.mpr ⟨rfl, h⟩, hi, hj⟩
    simp only [n1, n2, n4, if_false]

/-- C5 at the scenario of the specification: black at (3,4) captures white at
(4,5) by moving to (5,6); afterwards (5,6) holds the black piece and (3,4) and
(4,5) are empty. -/
theorem move_effect_witness :
    scenarioBoard.WellFormed ∧ scenarioBoard.Holds ⟨3, 4, Color.black, false⟩ ∧
    Piece.canMove scenarioBoard ⟨3, 4, Color.black, false⟩ 5 6 = .ok (true, true) ∧
    ∃ b2 p2, Piece.move scenarioBoard ⟨3, 4, Color.black, false⟩ 5 6 = .ok (b2, p2, true) ∧
      p2.x = 5 ∧ p2.y = 6 ∧ p2.color = Color.black ∧
      b2.getPiece 5 6 = .ok (some p2) ∧ b2.getPiece 3 4 = .ok none ∧
      b2.getPiece 4 5 = .ok none := by
  refine ⟨by decide, by decide, by decide, ?_⟩
  obtain ⟨b2, p2, h1, h2, h3, h4, h5, h6, h7, -⟩ :=
    move_effect scenarioBoard ⟨3, 4, Color.black, false⟩ 5 6 true (by decide) (by decide)
      (by decide)
  exact ⟨b2, p2, h1, h2, h3, h4, h5, h6, h7 rfl⟩

/-- C6: a legal `move` returns, and the piece is a king afterwards exactly when
it was one before or the target row is its promotion row, which is row `0` when
its forward sign is `+1` and row `height - 1` otherwise; the piece stored at the
target carries that status; and over any sequence of moves of the piece a king
stays a king. -/
theorem king_iff_promoted (b : Board) (p : Piece) (x y : Int) (capture : Bool)
    (hwf : b.WellFormed) (hp : b.Holds p) (hlegal : p.canMove b x y = .ok (true, capture)) :
    (∃ b2 p2, p.move b x y = .ok (b2, p2, capture) ∧ b2.getPiece x y = .ok (some p2) ∧
      (p2.isKing = true ↔ p.isKing = true ∨ y = p.promotionRow b)) ∧
    (p.getForwards = some 1 → p.promotionRow b = 0) ∧
    (p.getForwards ≠ some 1 → p.promotionRow b = (b.height : Int) - 1) ∧
    (∀ (b0 : Board) (k : Piece) (ts : List (Int × Int)) (r : Board × Piece),
      k.isKing = true → k.moveAll b0 ts = .ok r → r.2.isKing = true) := by
  refine ⟨?_, ?_, ?_, fun b0 k ts r => Piece.moveAll_king ts b0 k r⟩
  · have hpv := Board.getPiece_some_validPos hwf hp
    obtain ⟨legal, cap, h1, h2, h3⟩ := Piece.canMove_resolved hwf hpv x y
    rw [hlegal] at h1
    cases h1
    obtain ⟨hv, -, hdiag, -, hstep⟩ := h2.mp rfl
    have hcap : capture = ((x - p.x).natAbs == 2) := by
      cases hc : capture with
      | true => have := (h3.mp hc).2; simp [this]
      | false =>
        have : ¬ (x - p.x).natAbs = 2 := fun h => by
          have := h3.mpr ⟨rfl, h⟩
          rw [hc] at this
          cases this
        simp [this]
    obtain ⟨b2, hm, -, -, -, hg⟩ := Piece.move_resolved hwf hpv hv (fun h => by omega)
    refine ⟨b2, p.afterMove b x y, by rw [hcap]; exact hm, ?_, (p.afterMove_fields b x y).2.2.2⟩
    rw [hg x y]
    simp
  · intro hf
    simp [Piece.promotionRow, hf]
  · intro hf
    have : (p.getForwards == some 1) = false := by simpa using hf
    simp [Piece.promotionRow, this]

/-- C6 at a white piece that steps from (1,1) to row `0` and is crowned there. -/
theorem king_iff_promoted_witness :
    (Board.ofPieces 8 8 [⟨1, 1, Color.white, false⟩]).WellFormed ∧
    (Board.ofPieces 8 8 [⟨1, 1, Color.white, false⟩]).Holds ⟨1, 1, Color.white, false⟩ ∧
    Piece.canMove (Board.ofPieces 8 8 [⟨1, 1, Color.white, false⟩])
      ⟨1, 1, Color.white, false⟩ 0 0 = .ok (true, false) ∧
    ∃ b2 p2, Piece.move (Board.ofPieces 8 8 [⟨1, 1, Color.white, false⟩])
        ⟨1, 1, Color.white, false⟩ 0 0 = .ok (b2, p2, false) ∧
      b2.getPiece 0 0 = .ok (some p2) ∧ p2.isKing = true := by
  refine ⟨by decide, by decide, by decide, ?_⟩
  obtain ⟨⟨b2, p2, h1, h2, h3⟩, -⟩ :=
    king_iff_promoted (Board.ofPieces 8 8 [⟨1, 1, Color.white, false⟩])
      ⟨1, 1, Color.white, false⟩ 0 0 false (by decide) (by decide) (by decide)
  exact ⟨b2, p2, h1, h2, h3.mpr (Or.inr (by decide))⟩

/-! ## Loops over the cells -/

theorem scanCells_resolved (test : Int → Int → Except JsError Bool) (cells : List (Int × Int))
    (h : ∀ c ∈ cells, ∃ r, test c.1 c.2 = .ok r) :
    ∃ r, scanCells test cells = .ok r ∧
      (r = true ↔ ∃ c ∈ cells, test c.1 c.2 = .ok true) := by
  induction cells with
  | nil => exact ⟨false, rfl, by simp⟩
  | cons c rest ih =>
    obtain ⟨x, y⟩ := c
    obtain ⟨r, hr⟩ := h (x, y) (List.mem_cons_self _ _)
    obtain ⟨r2, hr2, hiff⟩ := ih (fun c hc => h c (List.mem_cons_of_mem _ hc))
    have hr1 : test x y = .ok r := hr
    cases r with
    | true =>
      refine ⟨true, by simp only [scanCells, hr1, Except.bind, if_true], ?_⟩
      simp only [true_iff]
      exact ⟨(x, y), List.mem_cons_self _ _, hr1⟩
    | false =>
      refine ⟨r2, by simp only [scanCells, hr1, Except.bind, Bool.false_eq_true, if_false, hr2], ?_⟩
      rw [hiff]
      constructor
      · rintro ⟨c, hc, hcs⟩
        exact ⟨c, List.mem_cons_of_mem _ hc, hcs⟩
      · rintro ⟨c, hc, hcs⟩
        rcases List.mem_cons.mp hc with hc | hc
        · subst hc
          rw [hr1] at hcs
          cases hcs
        · exact ⟨c, hc, hcs⟩

theorem mem_loopCells (xs ys : Nat) (c : Int × Int) :
    c ∈ loopCells xs ys ↔ 0 ≤ c.1 ∧ c.1 < (xs : Int) ∧ 0 ≤ c.2 ∧ c.2 < (ys : Int) := by
  obtain ⟨x, y⟩ := c
  unfold loopCells
  rw [List.mem_flatMap]
  constructor
  · rintro ⟨n, hn, hm⟩
    obtain ⟨m, hm, heq⟩ := List.mem_map.mp hm
    rw [List.mem_range] at hn hm
    cases heq
    exact ⟨by omega, by omega, by omega, by omega⟩
  · rintro ⟨h1, h2, h3, h4⟩
    refine ⟨x.toNat, List.mem_range.mpr (by omega), List.mem_map.mpr ⟨y.toNat,
      List.mem_range.mpr (by omega), ?_⟩⟩
    have e1 : ((x.toNat : Nat) : Int) = x := by omega
    have e2 : ((y.toNat : Nat) : Int) = y := by omega
    rw [e1, e2]

theorem foldlM_resolved {σ α : Type} (body : σ → α → Except JsError σ) (step : σ → α → σ)
    (l : List α) (h : ∀ a ∈ l, ∀ acc, body acc a = .ok (step acc a)) (acc : σ) :
    l.foldlM body acc = .ok (l.foldl step acc) := by
  induction l generalizing acc with
  | nil => rfl
  | cons a rest ih =>
    rw [List.foldlM_cons, h a (List.mem_cons_self _ _) acc, List.foldl_cons]
    exact ih (fun a2 h2 => h a2 (List.mem_cons_of_mem _ h2)) _

theorem Board.forEachPiece_flatten {σ : Type} (b : Board)
    (body : σ → Option Piece → Except JsError σ) (acc : σ) :
    b.forEachPiece body acc = b.pieces.flatten.foldlM body acc := by
  unfold Board.forEachPiece
  generalize b.pieces = cols
  induction cols generalizing acc with
  | nil => rfl
  | cons col rest ih =>
    rw [List.foldlM_cons, List.flatten_cons, List.foldlM_append]
    congr 1
    funext acc2
    exact ih acc2

theorem Board.mem_cells_iff (b : Board) (p : Piece) :
    some p ∈ b.pieces.flatten ↔ ∃ x y : Int, b.getPiece x y = .ok (some p) := by
  constructor
  · intro h
    obtain ⟨col, hcol, hp⟩ := List.mem_flatten.mp h
    obtain ⟨n, hn⟩ := List.mem_iff_getElem?.mp hcol
    obtain ⟨m, hm⟩ := List.mem_iff_getElem?.mp hp
    refine ⟨(n : Int), (m : Int), ?_⟩
    have h1 : arrayGet b.pieces (n : Int) = some col := by
      simp [arrayGet, hn]
    have h2 : arrayGet col (m : Int) = some (some p) := by
      simp [arrayGet, hm]
    simp [Board.getPiece, Board.column, h1, Except.bind, h2]
  · rintro ⟨x, y, h⟩
    unfold Board.getPiece at h
    cases hc : b.column x with
    | error e => rw [hc] at h; cases h
    | ok col =>
      rw [hc] at h
      have hcol := Board.column_eq_ok hc
      have hj : (arrayGet col y).join = some p := by
        simpa [Except.bind] using h
      cases hy : arrayGet col y with
      | none => rw [hy] at hj; cases hj
      | some o =>
        rw [hy] at hj
        have ho : o = some p := hj
        subst ho
        exact List.mem_flatten.mpr ⟨col, arrayGet_mem hcol, arrayGet_mem hy⟩

theorem Board.holds_of_getPiece {b : Board} (hs : b.Synced) {x y : Int} {p : Piece}
    (h : b.getPiece x y = .ok (some p)) : b.Holds p := by
  obtain ⟨hx, hy⟩ := hs x y p h
  unfold Board.Holds
  rw [hx, hy]
  exact h

/-- The two-loop scans of a piece whose stored position is inside a well-formed
board return, and find a hit exactly when some scanned cell has one. -/
theorem Piece.canMoveAnywhere_resolved {b : Board} {p : Piece} (hwf : b.WellFormed)
    (hp : b.validPos p.x p.y = true) :
    ∃ r, p.canMoveAnywhere b = .ok r ∧
      (r = true ↔ ∃ x y : Int, 0 ≤ x ∧ x < (b.width : Int) ∧ 0 ≤ y ∧ y < (b.width : Int) ∧
        ∃ c, p.canMove b x y = .ok (true, c)) := by
  obtain ⟨r, hr, hiff⟩ := scanCells_resolved
    (fun x y => (p.canMove b x y).map fun r => r.1) (loopCells b.width b.width)
    (fun c _ => by
      obtain ⟨l, k, h, -⟩ := Piece.canMove_resolved hwf hp c.1 c.2
      exact ⟨l, by simp only [h, Except.map]⟩)
  refine ⟨r, hr, ?_⟩
  rw [hiff]
  constructor
  · rintro ⟨c, hc, ht⟩
    have hm := (mem_loopCells _ _ c).mp hc
    obtain ⟨l, k, h, -⟩ := Piece.canMove_resolved hwf hp c.1 c.2
    simp only [h, Except.map] at ht
    cases ht
    exact ⟨c.1, c.2, hm.1, hm.2.1, hm.2.2.1, hm.2.2.2, k, h⟩
  · rintro ⟨x, y, h1, h2, h3, h4, c, h⟩
    exact ⟨(x, y), (mem_loopCells _ _ _).mpr ⟨h1, h2, h3, h4⟩, by simp only [h, Except.map]⟩

theorem Piece.canCaptureAnywhere_resolved {b : Board} {p : Piece} (hwf : b.WellFormed)
    (hp : b.validPos p.x p.y = true) :
    ∃ r, p.canCaptureAnywhere b = .ok r ∧
      (r = true ↔ ∃ x y : Int, 0 ≤ x ∧ x < (b.width : Int) ∧ 0 ≤ y ∧ y < (b.width : Int) ∧
        ∃ l, p.canMove b x y = .ok (l, true)) := by
  obtain ⟨r, hr, hiff⟩ := scanCells_resolved
    (fun x y => (p.canMove b x y).map fun r => r.2) (loopCells b.width b.width)
    (fun c _ => by
      obtain ⟨l, k, h, -⟩ := Piece.canMove_resolved hwf hp c.1 c.2
      exact ⟨k, by simp only [h, Except.map]⟩)
  refine ⟨r, hr, ?_⟩
  rw [hiff]
  constructor
  · rintro ⟨c, hc, ht⟩
    have hm := (mem_loopCells _ _ c).mp hc
    obtain ⟨l, k, h, -⟩ := Piece.canMove_resolved hwf hp c.1 c.2
    simp only [h, Except.map] at ht
    cases ht
    exact ⟨c.1, c.2, hm.1, hm.2.1, hm.2.2.1, hm.2.2.2, l, h⟩
  · rintro ⟨x, y, h1, h2, h3, h4, l, h⟩
    exact ⟨(x, y), (mem_loopCells _ _ _).mpr ⟨h1, h2, h3, h4⟩, by simp only [h, Except.map]⟩

theorem Board.validPos_of_mem {b : Board} (hwf : b.WellFormed) (hs : b.Synced) {p : Piece}
    (h : some p ∈ b.pieces.flatten) : b.Holds p ∧ b.validPos p.x p.y = true := by
  obtain ⟨x, y, hxy⟩ := (b.mem_cells_iff p).mp h
  have hh := Board.holds_of_getPiece hs hxy
  exact ⟨hh, Board.getPiece_some_validPos hwf hh⟩

/-- The accumulator of a loop over the cells that counts the pieces of a color
and collects a flag `f` of each of them with `||`. -/
theorem foldl_color_flag (color : Option Color) (f : Piece → Bool) (l : List (Option Piece)) :
    ∀ acc : Nat × Bool,
      (((l.foldl (fun (acc : Nat × Bool) (cell : Option Piece) =>
          match cell with
          | none => acc
          | some p => if some p.color ≠ color then acc else (acc.1 + 1, acc.2 || f p)) acc).2 = true ↔
        acc.2 = true ∨ ∃ p, some p ∈ l ∧ some p.color = color ∧ f p = true) ∧
      ((l.foldl (fun (acc : Nat × Bool) (cell : Option Piece) =>
          match cell with
          | none => acc
          | some p => if some p.color ≠ color then acc else (acc.1 + 1, acc.2 || f p)) acc).1 = 0 ↔
        acc.1 = 0 ∧ ∀ p, some p ∈ l → some p.color ≠ color)) := by
  induction l with
  | nil => intro acc; simp
  | cons cell rest ih =>
    intro acc
    rw [List.foldl_cons]
    cases cell with
    | none =>
      obtain ⟨h1, h2⟩ := ih acc
      constructor
      · rw [h1]; simp
      · rw [h2]; simp
    | some q =>
      by_cases hq : some q.color = color
      · have hn : ¬ (some q.color ≠ color) := fun h => h hq
        simp only [hn, if_false]
        obtain ⟨h1, h2⟩ := ih (acc.1 + 1, acc.2 || f q)
        constructor
        · rw [h1]
          simp only [Bool.or_eq_true, List.mem_cons, Option.some.injEq]
          constructor
          · rintro ((h | h) | ⟨p, hp, hc, hf⟩)
            · exact Or.inl h
            · exact Or.inr ⟨q, Or.inl rfl, hq, h⟩
            · exact Or.inr ⟨p, Or.inr hp, hc, hf⟩
          · rintro (h | ⟨p, hp | hp, hc, hf⟩)
            · exact Or.inl (Or.inl h)
            · subst hp; exact Or.inl (Or.inr hf)
            · exact Or.inr ⟨p, hp, hc, hf⟩
        · rw [h2]
          constructor
          · rintro ⟨h, -⟩
            simp at h
          · rintro ⟨-, h⟩
            exact absurd hq (h q (List.mem_cons_self _ _))
      · have hn : some q.color ≠ color := hq
        simp only [hn, if_true, ne_eq, not_false_eq_true]
        obtain ⟨h1, h2⟩ := ih acc
        constructor
        · rw [h1]
          simp only [List.mem_cons, Option.some.injEq]
          constructor
          · rintro (h | ⟨p, hp, hc, hf⟩)
            · exact Or.inl h
            · exact Or.inr ⟨p, Or.inr hp, hc, hf⟩
          · rintro (h | ⟨p, hp | hp, hc, hf⟩)
            · exact Or.inl h
            · subst hp; exact absurd hc hq
            · exact Or.inr ⟨p, hp, hc, hf⟩
        · rw [h2]
          simp only [List.mem_cons, Option.some.injEq]
          constructor
          · rintro ⟨h, hr⟩
            refine ⟨h, ?_⟩
            rintro p (hp | hp)
            · subst hp; exact hq
            · exact hr p hp
          · rintro ⟨h, hr⟩
            exact ⟨h, fun p hp => hr p (Or.inr hp)⟩

/-- The result of `Board.getLoss` on a well-formed board whose pieces carry their
own coordinates: no error, and `true` exactly when no piece of the color on
the board has a successful `canMoveAnywhere`. -/
theorem Board.getLoss_resolved {b : Board} (hwf : b.WellFormed) (hs : b.Synced)
    (color : Option Color) :
    ∃ r, b.getLoss color = .ok r ∧
      (r = true ↔ ∀ p, b.Holds p → some p.color = color → p.canMoveAnywhere b = .ok false) := by
  let f : Piece → Bool := fun p =>
    match p.canMoveAnywhere b with
    | .ok r => r
    | .error _ => false
  have hf : ∀ p, some p ∈ b.pieces.flatten → p.canMoveAnywhere b = .ok (f p) := by
    intro p hp
    obtain ⟨r, hr, -⟩ := Piece.canMoveAnywhere_resolved hwf (Board.validPos_of_mem hwf hs hp).2
    simp only [f, hr]
  have hfold := foldlM_resolved
    (fun (acc : Nat × Bool) (piece : Option Piece) =>
      match piece with
      | none => (.ok acc : Except JsError (Nat × Bool))
      | some p =>
        if some p.color ≠ color then .ok acc
        else (p.canMoveAnywhere b).bind fun m => .ok (acc.1 + 1, acc.2 || m))
    (fun (acc : Nat × Bool) (cell : Option Piece) =>
      match cell with
      | none => acc
      | some p => if some p.color ≠ color then acc else (acc.1 + 1, acc.2 || f p))
    b.pieces.flatten
    (by
      intro cell hcell acc
      cases cell with
      | none => rfl
      | some p =>
        by_cases hc : some p.color = color
        · have hn : ¬ (some p.color ≠ color) := fun h => h hc
          simp only [hn, if_false, hf p hcell, Except.bind]
        · have hn : some p.color ≠ color := hc
          simp only [hn, if_true, ne_eq, not_false_eq_true])
    (0, false)
  obtain ⟨h1, h2⟩ := foldl_color_flag color f b.pieces.flatten (0, false)
  unfold Board.getLoss
  rw [Board.forEachPiece_flatten, hfold]
  simp only [Except.bind]
  generalize (b.pieces.flatten.foldl (fun (acc : Nat × Bool) (cell : Option Piece) =>
      match cell with
      | none => acc
      | some p => if some p.color ≠ color then acc else (acc.1 + 1, acc.2 || f p)) (0, false)) = res
    at h1 h2
  refine ⟨res.1 == 0 || !res.2, by cases (res.1 == 0 || !res.2) <;> rfl, ?_⟩
  have key : ((res.1 == 0 || !res.2) = true) ↔
      ∀ p, some p ∈ b.pieces.flatten → some p.color = color → f p = false := by
    constructor
    · intro h p hp hc
      cases hfp : f p with
      | false => rfl
      | true =>
        have h22 : res.2 = true := h1.mpr (Or.inr ⟨p, hp, hc, hfp⟩)
        have h10 : res.1 ≠ 0 := fun h0 => (h2.mp h0).2 p hp hc
        simp [h22, h10] at h
    · intro h
      cases hr : res.2 with
      | false => simp
      | true =>
        rcases h1.mp hr with h0 | ⟨p, hp, hc, hfp⟩
        · cases h0
        · rw [h p hp hc] at hfp
          cases hfp
  rw [key]
  constructor
  · intro h p hp hc
    have hm : some p ∈ b.pieces.flatten := (b.mem_cells_iff p).mpr ⟨p.x, p.y, hp⟩
    rw [hf p hm, h p hm hc]
  · intro h p hp hc
    have := h p (Board.validPos_of_mem hwf hs hp).1 hc
    rw [hf p hp] at this
    exact Except.ok.inj this

theorem foldl_color_any (color : Option Color) (f : Piece → Bool) (l : List (Option Piece)) :
    ∀ acc : Bool,
      ((l.foldl (fun (acc : Bool) (cell : Option Piece) =>
          match cell with
          | none => acc
          | some p => if some p.color ≠ color then acc else (acc || f p)) acc) = true ↔
        acc = true ∨ ∃ p, some p ∈ l ∧ some p.color = color ∧ f p = true) := by
  induction l with
  | nil => intro acc; simp
  | cons cell rest ih =>
    intro acc
    rw [List.foldl_cons]
    cases cell with
    | none =>
      rw [ih acc]; simp
    | some q =>
      by_cases hq : some q.color = color
      · have hn : ¬ (some q.color ≠ color) := fun h => h hq
        simp only [hn, if_false]
        rw [ih (acc || f q)]
        simp only [Bool.or_eq_true, List.mem_cons, Option.some.injEq]
        constructor
        · rintro ((h | h) | ⟨p, hp, hc, hf⟩)
          · exact Or.inl h
          · exact Or.inr ⟨q, Or.inl rfl, hq, h⟩
          · exact Or.inr ⟨p, Or.inr hp, hc, hf⟩
        · rintro (h | ⟨p, hp | hp, hc, hf⟩)
          · exact Or.inl (Or.inl h)
          · subst hp; exact Or.inl (Or.inr hf)
          · exact Or.inr ⟨p, hp, hc, hf⟩
      · have hn : some q.color ≠ color := hq
        simp only [hn, if_true, ne_eq, not_false_eq_true]
        rw [ih acc]
        simp only [List.mem_cons, Option.some.injEq]
        constructor
        · rintro (h | ⟨p, hp, hc, hf⟩)
          · exact Or.inl h
          · exact Or.inr ⟨p, Or.inr hp, hc, hf⟩
        · rintro (h | ⟨p, hp | hp, hc, hf⟩)
          · exact Or.inl h
          · subst hp; exact absurd hc hq
          · exact Or.inr ⟨p, hp, hc, hf⟩

/-- The result of `Board.canPlayerCapture` on a well-formed board whose pieces
carry their own coordinates: no error, and `true` exactly when some piece of the
color on the board has a successful `canCaptureAnywhere`. -/
theorem Board.canPlayerCapture_resolved {b : Board} (hwf : b.WellFormed) (hs : b.Synced)
    (color : Option Color) :
    ∃ r, b.canPlayerCapture color = .ok r ∧
      (r = true ↔ ∃ p, b.Holds p ∧ some p.color = color ∧ p.canCaptureAnywhere b = .ok true) := by
  let f : Piece → Bool := fun p =>
    match p.canCaptureAnywhere b with
    | .ok r => r
    | .error _ => false
  have hf : ∀ p, some p ∈ b.pieces.flatten → p.canCaptureAnywhere b = .ok (f p) := by
    intro p hp
    obtain ⟨r, hr, -⟩ := Piece.canCaptureAnywhere_resolved hwf (Board.validPos_of_mem hwf hs hp).2
    simp only [f, hr]
  have hfold := foldlM_resolved
    (fun (acc : Bool) (piece : Option Piece) =>
      match piece with
      | none => (.ok acc : Except JsError Bool)
      | some p =>
        if some p.color ≠ color then .ok acc
        else (p.canCaptureAnywhere b).bind fun c => .ok (acc || c))
    (fun (acc : Bool) (cell : Option Piece) =>
      match cell with
      | none => acc
      | some p => if some p.color ≠ color then acc else (acc || f p))
    b.pieces.flatten
    (by
      intro cell hcell acc
      cases cell with
      | none => rfl
      | some p =>
        by_cases hc : some p.color = color
        · have hn : ¬ (some p.color ≠ color) := fun h => h hc
          simp only [hn, if_false, hf p hcell, Except.bind]
        · have hn : some p.color ≠ color := hc
          simp only [hn, if_true, ne_eq, not_false_eq_true])
    false
  have h1 := foldl_color_any color f b.pieces.flatten false
  unfold Board.canPlayerCapture
  rw [Board.forEachPiece_flatten, hfold]
  refine ⟨_, rfl, ?_⟩
  rw [h1]
  constructor
  · rintro (h | ⟨p, hp, hc, hfp⟩)
    · cases h
    · exact ⟨p, (Board.validPos_of_mem hwf hs hp).1, hc, by rw [hf p hp, hfp]⟩
  · rintro ⟨p, hp, hc, hcap⟩
    have hm : some p ∈ b.pieces.flatten := (b.mem_cells_iff p).mpr ⟨p.x, p.y, hp⟩
    rw [hf p hm] at hcap
    exact Or.inr ⟨p, hm, hc, Except.ok.inj hcap⟩

/-- On a board that is at least as wide as high, the scans of `getLoss` reach
every cell: the color has lost exactly when none of its pieces on the board has
a legal target. -/
theorem Board.getLoss_wide {b : Board} (hwf : b.WellFormed) (hs : b.Synced)
    (hsq : b.height ≤ b.width) (color : Option Color) :
    ∃ r, b.getLoss color = .ok r ∧
      (r = true ↔ ∀ p, b.Holds p → some p.color = color →
        ∀ (x y : Int) (c : Bool), p.canMove b x y ≠ .ok (true, c)) := by
  obtain ⟨r, hr, hiff⟩ := Board.getLoss_resolved hwf hs color
  refine ⟨r, hr, ?_⟩
  rw [hiff]
  constructor
  · intro h p hp hc x y c hcm
    have hpv := Board.getPiece_some_validPos hwf hp
    obtain ⟨r2, hr2, hiff2⟩ := Piece.canMoveAnywhere_resolved hwf hpv
    rw [h p hp hc] at hr2
    cases hr2
    obtain ⟨l, k, h1, h2, -⟩ := Piece.canMove_resolved hwf hpv x y
    rw [hcm] at h1
    cases h1
    have hv := (b.validPos_iff x y).mp (h2.mp rfl).1
    have : false = true := hiff2.mpr ⟨x, y, hv.1, hv.2.1, hv.2.2.1, by omega, c, hcm⟩
    cases this
  · intro h p hp hc
    have hpv := Board.getPiece_some_validPos hwf hp
    obtain ⟨r2, hr2, hiff2⟩ := Piece.canMoveAnywhere_resolved hwf hpv
    cases r2 with
    | false => exact hr2
    | true =>
      obtain ⟨x, y, -, -, -, -, c, hcm⟩ := hiff2.mp rfl
      exact absurd hcm (h p hp hc x y c)

/-- On a board that is at least as wide as high, `canPlayerCapture` is true
exactly when some piece of the color on the board has a capturing target. -/
theorem Board.canPlayerCapture_wide {b : Board} (hwf : b.WellFormed) (hs : b.Synced)
    (hsq : b.height ≤ b.width) (color : Option Color) :
    ∃ r, b.canPlayerCapture color = .ok r ∧
      (r = true ↔ ∃ p, b.Holds p ∧ some p.color = color ∧
        ∃ (x y : Int) (l : Bool), p.canMove b x y = .ok (l, true)) := by
  obtain ⟨r, hr, hiff⟩ := Board.canPlayerCapture_resolved hwf hs color
  refine ⟨r, hr, ?_⟩
  rw [hiff]
  constructor
  · rintro ⟨p, hp, hc, hcap⟩
    have hpv := Board.getPiece_some_validPos hwf hp
    obtain ⟨r2, hr2, hiff2⟩ := Piece.canCaptureAnywhere_resolved hwf hpv
    rw [hcap] at hr2
    cases hr2
    obtain ⟨x, y, -, -, -, -, l, hcm⟩ := hiff2.mp rfl
    exact ⟨p, hp, hc, x, y, l, hcm⟩
  · rintro ⟨p, hp, hc, x, y, l, hcm⟩
    have hpv := Board.getPiece_some_validPos hwf hp
    obtain ⟨r2, hr2, hiff2⟩ := Piece.canCaptureAnywhere_resolved hwf hpv
    obtain ⟨l2, k, h1, h2, h3⟩ := Piece.canMove_resolved hwf hpv x y
    rw [hcm] at h1
    cases h1
    have hv := (b.validPos_iff x y).mp (h2.mp (h3.mp rfl).1).1
    have : r2 = true := hiff2.mpr ⟨x, y, hv.1, hv.2.1, hv.2.2.1, by omega, l, hcm⟩
    subst this
    exact ⟨p, hp, hc, hr2⟩

/-- C7: the claim fails on the board built by `new Board(2, 4)`. Its black piece
at (0,2) may step to the in-bounds cell (1,3), yet `canMoveAnywhere` is false for
it and `getLoss("black")` is true: the inner loop of the scan stops at
`board.width`, so rows 2 and 3 are never tried. -/
theorem getLoss_narrow_board :
    (Board.new 2 4).Holds ⟨0, 2, Color.black, false⟩ ∧
    (Board.new 2 4).validPos 1 3 = true ∧
    Piece.canMove (Board.new 2 4) ⟨0, 2, Color.black, false⟩ 1 3 = .ok (true, false) ∧
    Piece.canMoveAnywhere (Board.new 2 4) ⟨0, 2, Color.black, false⟩ = .ok false ∧
    (Board.new 2 4).getLoss (some Color.black) = .ok true := by
  decide

/-- C8: the claim fails on the 4 by 6 board after the moves white (3,5) to (2,4),
black (2,2) to (1,3), white (1,5) to (0,4), made by clicks from `new Board(4, 6)`.
The black piece at (1,3) can capture to (3,5), yet `canCaptureAnywhere` is false
for it and `canPlayerCapture("black")` is false: the inner loop of the scan stops
at `board.width`, so rows 4 and 5 are never tried. -/
theorem canPlayerCapture_narrow_board :
    (clicks (State.mk (Board.new 4 6) none 0 [])
      [(3, 5), (2, 4), (2, 2), (1, 3), (1, 5), (0, 4)]).map (fun s => (s.board, s.currentPlayer))
      = .ok (narrowPosition, 1) ∧
    narrowPosition.Holds ⟨1, 3, Color.black, false⟩ ∧
    narrowPosition.validPos 3 5 = true ∧
    Piece.canMove narrowPosition ⟨1, 3, Color.black, false⟩ 3 5 = .ok (true, true) ∧
    Piece.canCaptureAnywhere narrowPosition ⟨1, 3, Color.black, false⟩ = .ok false ∧
    narrowPosition.canPlayerCapture (some Color.black) = .ok false := by
  decide

/-! ## The click handler -/

theorem pieceColors_get (n : Nat) (h : n < 2) : ∃ c, pieceColors[n]? = some c := by
  have h2 : n = 0 ∨ n = 1 := by omega
  rcases h2 with h2 | h2 <;> subst h2
  · exact ⟨Color.white, rfl⟩
  · exact ⟨Color.black, rfl⟩

/-- A legal move keeps the board well-formed, of the same size, and with every
piece carrying the coordinates of its cell. -/
theorem Piece.move_preserves {b : Board} {p : Piece} (hwf : b.WellFormed) (hs : b.Synced)
    (hp : b.validPos p.x p.y = true) {x y : Int} {l k : Bool}
    (hcm : p.canMove b x y = .ok (l, k)) (hl : l = true) :
    ∃ b2, p.move b x y = .ok (b2, p.afterMove b x y, k) ∧ b2.WellFormed ∧ b2.Synced ∧
      b2.width = b.width ∧ b2.height = b.height ∧
      b2.getPiece x y = .ok (some (p.afterMove b x y)) ∧
      ∀ i j : Int, ¬ (i = x ∧ j = y) → ∀ q, b2.getPiece i j = .ok (some q) →
        b.getPiece i j = .ok (some q) := by
  obtain ⟨l2, k2, h1, h2, h3⟩ := Piece.canMove_resolved hwf hp x y
  rw [hcm] at h1
  cases h1
  subst hl
  obtain ⟨hv, -, hdiag, -, hstep⟩ := h2.mp rfl
  have hcap : k = ((x - p.x).natAbs == 2) := by
    cases hc : k with
    | true => have := (h3.mp hc).2; simp [this]
    | false =>
      have : ¬ (x - p.x).natAbs = 2 := fun h => by
        have := h3.mpr ⟨rfl, h⟩
        rw [hc] at this
        cases this
      simp [this]
  obtain ⟨b2, hm, hwf2, hw, hh, hg⟩ := Piece.move_resolved hwf hp hv (fun h => by omega)
  have hframe : ∀ i j : Int, ¬ (i = x ∧ j = y) → ∀ q, b2.getPiece i j = .ok (some q) →
      b.getPiece i j = .ok (some q) := by
    intro i j hij q hq
    rw [hg i j] at hq
    simp only [hij, if_false] at hq
    split at hq
    · cases hq
    · split at hq
      · cases hq
      · exact hq
  refine ⟨b2, by rw [hcap]; exact hm, hwf2, ?_, hw, hh, by rw [hg x y]; simp, hframe⟩
  intro i j q hq
  by_cases hij : i = x ∧ j = y
  · rw [hg i j] at hq
    simp only [hij, and_self, if_true] at hq
    have hq2 : p.afterMove b x y = q := Option.some.inj (Except.ok.inj hq)
    rw [← hq2, hij.1, hij.2]
    exact ⟨(p.afterMove_fields b x y).1, (p.afterMove_fields b x y).2.1⟩
  · exact hs i j q (hframe i j hij q hq)

/-- The result of `advanceGame` on a well-formed board with synced pieces and a
player index below 2: no error, the player index advances modulo 2, the board and
the selection stay, and nothing or one alert is added to the effects. -/
theorem advanceGame_resolved {s : State} (hwf : s.board.WellFormed) (hs : s.board.Synced)
    (hcp : s.currentPlayer < 2) :
    ∃ s2, advanceGame s = .ok s2 ∧ s2.board = s.board ∧
      s2.selectedPiece = s.selectedPiece ∧
      s2.currentPlayer = (s.currentPlayer + 1) % 2 ∧
      (s2.events = s.events ∨ ∃ msg, s2.events = s.events ++ [Event.alert msg]) := by
  obtain ⟨loss, hloss, -⟩ := Board.getLoss_resolved hwf hs
    pieceColors[(s.currentPlayer + 1) % pieceColors.length]?
  obtain ⟨c, hc⟩ := pieceColors_get s.currentPlayer hcp
  unfold advanceGame
  dsimp only
  rw [hloss]
  cases loss with
  | false => exact ⟨_, rfl, rfl, rfl, rfl, Or.inl rfl⟩
  | true =>
    simp only [Except.bind, if_true, hc]
    exact ⟨_, rfl, rfl, rfl, rfl, Or.inr ⟨_, rfl⟩⟩

/-- The click handler in a state with a selected piece, for a click on an empty
in-bounds cell: it returns; with `permitted` the flag that the handler tests, it
clears the selection and otherwise leaves the state alone when `permitted` is
false, and applies `move` and `advanceGame` when it is true. -/
theorem boardClicked_selected {s : State} {sel : Piece} {x y : Int}
    (hwf : s.board.WellFormed) (hs : s.board.Synced) (hcp : s.currentPlayer < 2)
    (hsel : s.selectedPiece = some sel) (hheld : s.board.Holds sel)
    (hv : s.board.validPos x y = true) (hempty : s.board.getPiece x y = .ok none) :
    ∃ cc l k, s.board.canPlayerCapture pieceColors[s.currentPlayer]? = .ok cc ∧
      sel.canMove s.board x y = .ok (l, k) ∧ (k = true → l = true) ∧
      ((if cc = true then k else l) = false →
        boardClicked s x y = .ok { s with selectedPiece := none }) ∧
      ((if cc = true then k else l) = true →
        ∃ b2 s2, sel.move s.board x y = .ok (b2, sel.afterMove s.board x y, k) ∧
          b2.WellFormed ∧ b2.Synced ∧ b2.width = s.board.width ∧ b2.height = s.board.height ∧
          boardClicked s x y = .ok s2 ∧ s2.board = b2 ∧ s2.selectedPiece = none ∧
          s2.currentPlayer = (s.currentPlayer + 1) % 2 ∧
          (s2.events = s.events ++ [Event.sound] ∨
            ∃ msg, s2.events = s.events ++ [Event.sound] ++ [Event.alert msg])) := by
  have hpv := Board.getPiece_some_validPos hwf hheld
  obtain ⟨cc, hcc, -⟩ := Board.canPlayerCapture_resolved hwf hs pieceColors[s.currentPlayer]?
  obtain ⟨l, k, hcm, h2, h3⟩ := Piece.canMove_resolved hwf hpv x y
  have hkl : k = true → l = true := fun hk => (h3.mp hk).1
  have hreq : ((if (if cc = true then 1 else 0 : Nat) = 1 then k else l)) =
      (if cc = true then k else l) := by
    cases cc <;> simp
  refine ⟨cc, l, k, hcc, hcm, hkl, ?_, ?_⟩
  · intro hperm
    unfold boardClicked
    simp only [hv, Bool.not_true, Bool.false_eq_true, if_false, hempty, Except.bind, hsel, hcc,
      hcm, hreq, hperm]
  · intro hperm
    have hl : l = true := by
      cases cc with
      | true => exact hkl (by simpa using hperm)
      | false => simpa using hperm
    obtain ⟨b2, hm, hwf2, hs2, hw, hh, -, -⟩ := Piece.move_preserves hwf hs hpv hcm hl
    obtain ⟨s2, ha, hab, -, hac, hae⟩ := advanceGame_resolved
      (s := { s with board := b2, selectedPiece := some (sel.afterMove s.board x y),
                     events := s.events ++ [Event.sound] }) hwf2 hs2 hcp
    refine ⟨b2, { s2 with selectedPiece := none }, hm, hwf2, hs2, hw, hh, ?_, hab, rfl, hac, hae⟩
    unfold boardClicked
    simp only [hv, Bool.not_true, Bool.false_eq_true, if_false, hempty, Except.bind, hsel, hcc,
      hcm, hreq, hperm, if_true, hm, ha]

/-! ## The initial layout and concrete boards -/

theorem arrayGet_map_range {α : Type} (f : Nat → α) (n : Nat) (i : Nat) (h : i < n) :
    arrayGet ((List.range n).map f) (i : Int) = some (f i) := by
  simp [arrayGet, h]

theorem Board.initPieces_wellFormed (b : Board) : b.initPieces.WellFormed := by
  refine ⟨by simp [Board.initPieces], ?_⟩
  intro col hcol
  simp only [Board.initPieces, List.mem_map] at hcol
  obtain ⟨x, -, rfl⟩ := hcol
  simp
  rfl

theorem Board.initPieces_getPiece (b : Board) (x y : Nat) (hx : x < b.width)
    (hy : y < b.height) : b.initPieces.getPiece x y = .ok (initCell x y) := by
  have h1 : arrayGet b.initPieces.pieces (x : Int) =
      some ((List.range b.height).map fun (y : Nat) => initCell x y) :=
    arrayGet_map_range _ b.width x hx
  have h2 : arrayGet ((List.range b.height).map fun (y : Nat) => initCell x y) (y : Int) =
      some (initCell x y) :=
    arrayGet_map_range _ b.height y hy
  simp only [Board.getPiece, Board.column, h1, Except.bind, h2, Option.join]
  rfl

theorem initCell_position {x y : Nat} {p : Piece} (h : initCell x y = some p) :
    p.x = x ∧ p.y = y := by
  unfold initCell at h
  dsimp only at h
  split at h
  · cases h; exact ⟨rfl, rfl⟩
  · split at h
    · cases h; exact ⟨rfl, rfl⟩
    · cases h

theorem Board.initPieces_synced (b : Board) : b.initPieces.Synced := by
  intro x y p h
  have hv := (b.initPieces.validPos_iff x y).mp
    (Board.getPiece_some_validPos b.initPieces_wellFormed h)
  have hx : x = ((x.toNat : Nat) : Int) := by omega
  have hy : y = ((y.toNat : Nat) : Int) := by omega
  have hw : b.initPieces.width = b.width := rfl
  have hh : b.initPieces.height = b.height := rfl
  rw [hx, hy, Board.initPieces_getPiece b x.toNat y.toNat (by omega) (by omega)] at h
  have h3 : initCell x.toNat y.toNat = some p := Except.ok.inj h
  have := initCell_position h3
  constructor <;> omega

theorem Board.synced_of_check {b : Board} (hwf : b.WellFormed) (h : b.syncedCheck = true) :
    b.Synced := by
  intro x y p hp
  have hv := (b.validPos_iff x y).mp (Board.getPiece_some_validPos hwf hp)
  have hx : x = ((x.toNat : Nat) : Int) := by omega
  have hy : y = ((y.toNat : Nat) : Int) := by omega
  unfold Board.syncedCheck at h
  rw [List.all_eq_true] at h
  have h1 := h x.toNat (List.mem_range.mpr (by omega))
  rw [List.all_eq_true] at h1
  have h2 := h1 y.toNat (List.mem_range.mpr (by omega))
  unfold Board.syncedAt at h2
  rw [← hx, ← hy, hp] at h2
  simp only [Bool.and_eq_true, beq_iff_eq] at h2
  omega

/-- What the click handler does with the capture requirement: in a state with a
selected piece, a click on an empty in-bounds cell applies the move exactly when
`canPlayerCapture` of the current color is true and `canMove` reports a capture,
or it is false and `canMove` reports a legal move; otherwise board and player
stay. On a board at least as wide as high (the 8x8 board of the game), when some
piece of the current player has a capturing target, a click whose `canMove`
reports no capture is rejected and one whose `canMove` reports a capture is
accepted. -/
theorem mandatory_capture (s : State) (sel : Piece) (x y : Int)
    (hwf : s.board.WellFormed) (hs : s.board.Synced) (hcp : s.currentPlayer < 2)
    (hsel : s.selectedPiece = some sel) (hheld : s.board.Holds sel)
    (hv : s.board.validPos x y = true) (hempty : s.board.getPiece x y = .ok none) :
    ∃ canCapture legal capture s2,
      s.board.canPlayerCapture pieceColors[s.currentPlayer]? = .ok canCapture ∧
      sel.canMove s.board x y = .ok (legal, capture) ∧
      boardClicked s x y = .ok s2 ∧
      (((canCapture = true ∧ capture = true) ∨ (canCapture = false ∧ legal = true)) →
        ∃ b2 p2, sel.move s.board x y = .ok (b2, p2, capture) ∧ s2.board = b2 ∧
          s2.currentPlayer ≠ s.currentPlayer) ∧
      (¬ ((canCapture = true ∧ capture = true) ∨ (canCapture = false ∧ legal = true)) →
        s2.board = s.board ∧ s2.currentPlayer = s.currentPlayer) ∧
      (s.board.height ≤ s.board.width →
        (∃ q, s.board.Holds q ∧ some q.color = pieceColors[s.currentPlayer]? ∧
          ∃ (x2 y2 : Int) (l2 : Bool), q.canMove s.board x2 y2 = .ok (l2, true)) →
        (capture = false → s2.board = s.board ∧ s2.currentPlayer = s.currentPlayer) ∧
        (capture = true → ∃ b2 p2, sel.move s.board x y = .ok (b2, p2, capture) ∧ s2.board = b2 ∧
          s2.currentPlayer ≠ s.currentPlayer)) := by
  obtain ⟨cc, l, k, hcc, hcm, hkl, hno, hyes⟩ :=
    boardClicked_selected hwf hs hcp hsel hheld hv hempty
  have applied : (if cc = true then k else l) = true →
      ∃ s2, boardClicked s x y = .ok s2 ∧
        ∃ b2 p2, sel.move s.board x y = .ok (b2, p2, k) ∧ s2.board = b2 ∧
          s2.currentPlayer ≠ s.currentPlayer := by
    intro hperm
    obtain ⟨b2, s2, hm, -, -, -, -, hclick, hb, -, hp, -⟩ := hyes hperm
    exact ⟨s2, hclick, b2, _, hm, hb, by rw [hp]; omega⟩
  cases hperm : (if cc = true then k else l) with
  | false =>
    have hclick := hno hperm
    refine ⟨cc, l, k, _, hcc, hcm, hclick, ?_, fun _ => ⟨rfl, rfl⟩, ?_⟩
    · rintro (⟨h1, h2⟩ | ⟨h1, h2⟩)
      · rw [h1, h2] at hperm; cases hperm
      · rw [h1, h2] at hperm; cases hperm
    · intro hsq hq
      obtain ⟨r, hr, hiff⟩ := Board.canPlayerCapture_wide hwf hs hsq pieceColors[s.currentPlayer]?
      rw [hcc] at hr
      cases hr
      have hcct : cc = true := hiff.mpr hq
      refine ⟨fun _ => ⟨rfl, rfl⟩, fun hk => ?_⟩
      rw [hcct, hk] at hperm
      cases hperm
  | true =>
    obtain ⟨s2, hclick, happ⟩ := applied hperm
    refine ⟨cc, l, k, s2, hcc, hcm, hclick, fun _ => happ, ?_, ?_⟩
    · intro hn
      exfalso
      apply hn
      cases cc with
      | true => exact Or.inl ⟨rfl, by simpa using hperm⟩
      | false => exact Or.inr ⟨rfl, by simpa using hperm⟩
    · intro hsq hq
      obtain ⟨r, hr, hiff⟩ := Board.canPlayerCapture_wide hwf hs hsq pieceColors[s.currentPlayer]?
      rw [hcc] at hr
      cases hr
      have hcct : cc = true := hiff.mpr hq
      refine ⟨fun hk => ?_, fun _ => happ⟩
      rw [hcct, hk] at hperm
      cases hperm

/-- The mandatory-capture scenario on the 8x8 board: with the black piece at
(0,0) selected, the click on (1,1), a legal simple step, leaves board and player
as they were, because the black piece at (3,4) can capture. -/
theorem mandatory_capture_witness :
    (mandatoryState ⟨0, 0, Color.black, false⟩).board.WellFormed ∧
    (mandatoryState ⟨0, 0, Color.black, false⟩).board.Holds ⟨0, 0, Color.black, false⟩ ∧
    Piece.canMove (mandatoryState ⟨0, 0, Color.black, false⟩).board
      ⟨0, 0, Color.black, false⟩ 1 1 = .ok (true, false) ∧
    ∃ s2, boardClicked (mandatoryState ⟨0, 0, Color.black, false⟩) 1 1 = .ok s2 ∧
      s2.board = (mandatoryState ⟨0, 0, Color.black, false⟩).board ∧ s2.currentPlayer = 1 := by
  refine ⟨by decide, by decide, by decide, ?_⟩
  obtain ⟨cc, l, k, s2, hcc, hcm, hclick, -, hrej, -⟩ :=
    mandatory_capture (mandatoryState ⟨0, 0, Color.black, false⟩) ⟨0, 0, Color.black, false⟩ 1 1
      (by decide) (Board.synced_of_check (by decide) (by decide)) (by decide) rfl (by decide)
      (by decide) (by decide)
  have h1 : (mandatoryState ⟨0, 0, Color.black, false⟩).board.canPlayerCapture
      pieceColors[(mandatoryState ⟨0, 0, Color.black, false⟩).currentPlayer]? = .ok true := by
    decide
  have h2 : Piece.canMove (mandatoryState ⟨0, 0, Color.black, false⟩).board
      ⟨0, 0, Color.black, false⟩ 1 1 = .ok (true, false) := by decide
  rw [h1] at hcc
  rw [h2] at hcm
  cases hcc
  cases hcm
  exact ⟨s2, hclick, hrej (by decide)⟩

/-- C9: the claim fails on the 4 by 6 board after the moves white (3,5) to (2,4),
black (2,2) to (1,3), white (1,5) to (0,4) and the selection of the black piece
at (3,1), all made by clicks from `new Board(4, 6)`. The black piece at (1,3) can
capture to (3,5), so a simple step must be rejected; but `canPlayerCapture` of
black is false there, and the click on (2,2) applies the simple step of the piece
at (3,1) and hands the turn to player 0. The scan of `canCaptureAnywhere` stops
its inner loop at `board.width` and never tries rows 4 and 5. -/
theorem mandatory_capture_narrow_board :
    (clicks (State.mk (Board.new 4 6) none 0 [])
      [(3, 5), (2, 4), (2, 2), (1, 3), (1, 5), (0, 4), (3, 1)]).map
      (fun s => (s.board, s.selectedPiece, s.currentPlayer))
      = .ok (narrowPosition, some ⟨3, 1, Color.black, false⟩, 1) ∧
    narrowPosition.Holds ⟨1, 3, Color.black, false⟩ ∧
    Piece.canMove narrowPosition ⟨1, 3, Color.black, false⟩ 3 5 = .ok (true, true) ∧
    narrowPosition.canPlayerCapture (some Color.black) = .ok false ∧
    narrowPosition.validPos 2 2 = true ∧
    narrowPosition.getPiece 2 2 = .ok none ∧
    Piece.canMove narrowPosition ⟨3, 1, Color.black, false⟩ 2 2 = .ok (true, false) ∧
    (clicks (State.mk (Board.new 4 6) none 0 [])
      [(3, 5), (2, 4), (2, 2), (1, 3), (1, 5), (0, 4), (3, 1), (2, 2)]).map
      (fun s => (s.board.getPiece 2 2, s.board.getPiece 3 1, s.selectedPiece, s.currentPlayer))
      = .ok (.ok (some ⟨2, 2, Color.black, false⟩), .ok none, none, 0) := by
  decide

/-- C10: in a state with a selected piece, a click on an empty in-bounds cell
returns with the selection cleared; when the move is not permitted, board,
player and effects are unchanged; when it is permitted, the board is the one
returned by `move` and the player index is that of the other player. -/
theorem click_on_empty_cell (s : State) (sel : Piece) (x y : Int)
    (hwf : s.board.WellFormed) (hs : s.board.Synced) (hcp : s.currentPlayer < 2)
    (hsel : s.selectedPiece = some sel) (hheld : s.board.Holds sel)
    (hv : s.board.validPos x y = true) (hempty : s.board.getPiece x y = .ok none) :
    ∃ canCapture legal capture s2,
      s.board.canPlayerCapture pieceColors[s.currentPlayer]? = .ok canCapture ∧
      sel.canMove s.board x y = .ok (legal, capture) ∧
      boardClicked s x y = .ok s2 ∧ s2.selectedPiece = none ∧
      (¬ ((canCapture = true ∧ capture = true) ∨ (canCapture = false ∧ legal = true)) →
        s2.board = s.board ∧ s2.currentPlayer = s.currentPlayer ∧ s2.events = s.events) ∧
      (((canCapture = true ∧ capture = true) ∨ (canCapture = false ∧ legal = true)) →
        ∃ b2 p2, sel.move s.board x y = .ok (b2, p2, capture) ∧ s2.board = b2 ∧
          s2.currentPlayer = 1 - s.currentPlayer ∧ s2.currentPlayer < 2) := by
  obtain ⟨cc, l, k, hcc, hcm, hkl, hno, hyes⟩ :=
    boardClicked_selected hwf hs hcp hsel hheld hv hempty
  cases hperm : (if cc = true then k else l) with
  | false =>
    refine ⟨cc, l, k, _, hcc, hcm, hno hperm, rfl, fun _ => ⟨rfl, rfl, rfl⟩, ?_⟩
    rintro (⟨h1, h2⟩ | ⟨h1, h2⟩)
    · rw [h1, h2] at hperm; cases hperm
    · rw [h1, h2] at hperm; cases hperm
  | true =>
    obtain ⟨b2, s2, hm, -, -, -, -, hclick, hb, hsn, hp, -⟩ := hyes hperm
    refine ⟨cc, l, k, s2, hcc, hcm, hclick, hsn, ?_, fun _ =>
      ⟨b2, _, hm, hb, by rw [hp]; omega, by rw [hp]; omega⟩⟩
    intro hn
    exfalso
    apply hn
    cases cc with
    | true => exact Or.inl ⟨rfl, by simpa using hperm⟩
    | false => exact Or.inr ⟨rfl, by simpa using hperm⟩

/-- C10 in the mandatory-capture scenario: with the black piece at (3,4)
selected, the click on (5,6) applies the capture, clears the selection and hands
the turn to player 0. -/
theorem click_on_empty_cell_witness :
    (mandatoryState ⟨3, 4, Color.black, false⟩).board.WellFormed ∧
    (mandatoryState ⟨3, 4, Color.black, false⟩).board.Holds ⟨3, 4, Color.black, false⟩ ∧
    ∃ s2 b2 p2, boardClicked (mandatoryState ⟨3, 4, Color.black, false⟩) 5 6 = .ok s2 ∧
      Piece.move (mandatoryState ⟨3, 4, Color.black, false⟩).board
        ⟨3, 4, Color.black, false⟩ 5 6 = .ok (b2, p2, true) ∧
      s2.selectedPiece = none ∧ s2.board = b2 ∧ s2.currentPlayer = 0 := by
  refine ⟨by decide, by decide, ?_⟩
  obtain ⟨cc, l, k, s2, hcc, hcm, hclick, hsn, -, hacc⟩ :=
    click_on_empty_cell (mandatoryState ⟨3, 4, Color.black, false⟩) ⟨3, 4, Color.black, false⟩ 5 6
      (by decide) (Board.synced_of_check (by decide) (by decide)) (by decide) rfl (by decide)
      (by decide) (by decide)
  have h1 : (mandatoryState ⟨3, 4, Color.black, false⟩).board.canPlayerCapture
      pieceColors[(mandatoryState ⟨3, 4, Color.black, false⟩).currentPlayer]? = .ok true := by
    decide
  have h2 : Piece.canMove (mandatoryState ⟨3, 4, Color.black, false⟩).board
      ⟨3, 4, Color.black, false⟩ 5 6 = .ok (true, true) := by decide
  rw [h1] at hcc
  rw [h2] at hcm
  cases hcc
  cases hcm
  obtain ⟨b2, p2, hm, hb, hp, -⟩ := hacc (Or.inl ⟨rfl, rfl⟩)
  exact ⟨s2, b2, p2, hclick, hm, hsn, hb, hp⟩

/-- C11: a click on an in-bounds cell that holds a piece selects that piece when
its color is the color of the current player and otherwise returns the state as
it was; in both cases board and player are unchanged. A click on an empty
in-bounds cell without selection, and a click outside the board in any state,
return the state as it was. -/
theorem click_selects (s : State) (x y : Int) :
    (∀ piece, s.board.validPos x y = true → s.board.getPiece x y = .ok (some piece) →
      (some piece.color = pieceColors[s.currentPlayer]? →
        boardClicked s x y = .ok { s with selectedPiece := some piece }) ∧
      (some piece.color ≠ pieceColors[s.currentPlayer]? → boardClicked s x y = .ok s)) ∧
    (s.board.validPos x y = true → s.board.getPiece x y = .ok none → s.selectedPiece = none →
      boardClicked s x y = .ok s) ∧
    (s.board.validPos x y = false → boardClicked s x y = .ok s) := by
  refine ⟨fun piece hv hp => ⟨fun hc => ?_, fun hc => ?_⟩, fun hv hp hsel => ?_, fun hv => ?_⟩
  · unfold boardClicked
    have hn : ¬ (some piece.color ≠ pieceColors[s.currentPlayer]?) := fun h => h hc
    simp only [hv, Bool.not_true, Bool.false_eq_true, if_false, hp, Except.bind, hn]
  · unfold boardClicked
    simp only [hv, Bool.not_true, Bool.false_eq_true, if_false, hp, Except.bind, hc, if_true,
      ne_eq, not_false_eq_true]
  · unfold boardClicked
    simp only [hv, Bool.not_true, Bool.false_eq_true, if_false, hp, Except.bind, hsel]
  · unfold boardClicked
    simp only [hv, Bool.not_false, if_true]

/-- C11 at the start of the game: the click on the white piece at (1,5) selects
it, and board and player are those of the start. -/
theorem click_selects_witness :
    initialState.board.validPos 1 5 = true ∧
    initialState.board.getPiece 1 5 = .ok (some ⟨1, 5, Color.white, false⟩) ∧
    boardClicked initialState 1 5 =
      .ok { initialState with selectedPiece := some ⟨1, 5, Color.white, false⟩ } :=
  ⟨by decide, by decide,
    ((click_selects initialState 1 5).1 ⟨1, 5, Color.white, false⟩ (by decide) (by decide)).1
      (by decide)⟩

/-- C12: after `initPieces`, for every width and height, the cell `(x, y)` of the
grid holds a piece exactly when `x + y` is even and `y ≥ 5` or `y ≤ 2`; that piece
is white when `y ≥ 5` and black otherwise, is not a king and has stored position
`(x, y)`; every other cell is empty. -/
theorem initPieces_layout (b : Board) (x y : Nat) (hx : x < b.width) (hy : y < b.height) :
    b.initPieces.width = b.width ∧ b.initPieces.height = b.height ∧
    b.initPieces.getPiece x y =
      .ok (if (x + y) % 2 = 0 ∧ (y ≥ 5 ∨ y ≤ 2)
        then some ⟨x, y, if y ≥ 5 then Color.white else Color.black, false⟩
        else none) := by
  refine ⟨rfl, rfl, ?_⟩
  rw [Board.initPieces_getPiece b x y hx hy]
  congr 1
  unfold initCell
  dsimp only
  by_cases hp : (x + y) % 2 = 0
  · by_cases h5 : y ≥ 5
    · have h2 : ¬ y ≤ 2 := by omega
      simp [hp, h5, h2]
    · by_cases h2 : y ≤ 2
      · simp [hp, h5, h2]
      · simp [hp, h5, h2]
  · simp [hp]

/-- C12 on the board of `new Board(8, 8)` at the cell (1,5). -/
theorem initPieces_layout_witness :
    (1 : Nat) < (Board.mk 8 8 []).width ∧ (5 : Nat) < (Board.mk 8 8 []).height ∧
    (Board.new 8 8).getPiece 1 5 = .ok (some ⟨1, 5, Color.white, false⟩) :=
  ⟨by decide, by decide, (initPieces_layout (Board.mk 8 8 []) 1 5 (by decide) (by decide)).2.2⟩

/-- C13, as stated, fails: on the initial 8x8 board the cell (0,5) is empty (its
coordinate sum 5 is odd) and the cell (1,5) holds a piece. -/
theorem initial_cells_counterexample :
    (Board.new 8 8).getPiece 0 5 = .ok none ∧
    (Board.new 8 8).getPiece 1 5 = .ok (some ⟨1, 5, Color.white, false⟩) := by
  decide

/-- C13 amended: on the initial 8x8 board the cell (1,5) holds a piece, the cell
(0,5) is empty, and the cell (0,2) holds a piece of the color opposite to that of
the piece at (1,5). -/
theorem initial_cells :
    (Board.new 8 8).getPiece 1 5 = .ok (some ⟨1, 5, Color.white, false⟩) ∧
    (Board.new 8 8).getPiece 0 5 = .ok none ∧
    (Board.new 8 8).getPiece 0 2 = .ok (some ⟨0, 2, Color.black, false⟩) ∧
    Color.black ≠ Color.white := by
  decide

/-- C14: on the initial 8x8 board the rows 3 and 4 are empty and there are 24
pieces, 12 white and 12 black. -/
theorem initial_counts :
    (∀ x : Fin 8, (Board.new 8 8).getPiece (x.val : Int) 3 = .ok none ∧
      (Board.new 8 8).getPiece (x.val : Int) 4 = .ok none) ∧
    (Board.new 8 8).countPieces = 24 ∧
    (Board.new 8 8).countColor Color.white = 12 ∧
    (Board.new 8 8).countColor Color.black = 12 := by
  decide

/-- Whatever the board, a `true` legality flag of `canMove` comes with a target
in bounds on a diagonal at distance 1 or 2, and a `true` capture flag comes with
a `true` legality flag. -/
theorem Piece.canMove_inv {b : Board} {p : Piece} {x y : Int} {l k : Bool}
    (h : p.canMove b x y = .ok (l, k)) :
    (k = true → l = true) ∧
    (l = true → b.validPos x y = true ∧ (y - p.y).natAbs = (x - p.x).natAbs ∧
      ((x - p.x).natAbs = 1 ∨ (x - p.x).natAbs = 2) ∧ (k = true ↔ (x - p.x).natAbs = 2)) := by
  unfold Piece.canMove at h
  dsimp only at h
  cases hv : b.validPos x y with
  | false =>
    simp only [hv, Bool.not_false, if_true] at h
    cases h
    simp
  | true =>
    simp only [hv, Bool.not_true, Bool.false_eq_true, if_false] at h
    cases he : b.isEmpty x y with
    | error e => rw [he] at h; cases h
    | ok e =>
      rw [he] at h
      simp only [Except.bind] at h
      cases e with
      | false =>
        simp only [Bool.not_false, if_true] at h
        cases h
        simp
      | true =>
        simp only [Bool.not_true, Bool.false_eq_true, if_false] at h
        cases hq : quotientIsOne (y - p.y).natAbs (x - p.x).natAbs with
        | false =>
          simp only [hq, Bool.not_false, if_true] at h
          cases h
          simp
        | true =>
          have hq2 := (quotientIsOne_iff _ _).mp hq
          simp only [hq, Bool.not_true, Bool.false_eq_true, if_false] at h
          split at h
          · cases h
            simp
          · cases hc : ((x - p.x).natAbs == 2) with
            | false =>
              have hc2 : (x - p.x).natAbs ≠ 2 := by simpa using hc
              simp only [hc, Bool.false_eq_true, if_false, Bool.or_false] at h
              cases h
              refine ⟨by simp, fun h1 => ⟨rfl, hq2.2, Or.inl (by simpa using h1), by simp [hc2]⟩⟩
            | true =>
              have hc2 : (x - p.x).natAbs = 2 := by simpa using hc
              simp only [hc, if_true] at h
              cases hm : b.getPiece (p.x + Int.sign (x - p.x)) (p.y + Int.sign (y - p.y)) with
              | error e => rw [hm] at h; cases h
              | ok m =>
                rw [hm] at h
                cases m with
                | none =>
                  cases h
                  simp
                | some c =>
                  simp only at h
                  split at h
                  · cases h
                    simp
                  · cases h
                    exact ⟨fun _ => Bool.or_true _, fun _ => ⟨rfl, hq2.2, Or.inr hc2, by simp [hc2]⟩⟩

/-- C18: for every board, piece and target, a capture flag `true` from `canMove`
comes with a legality flag `true`; so the flag tested by the click handler under
mandatory capture implies that the move is legal. -/
theorem capture_implies_legal (b : Board) (p : Piece) (x y : Int) (legal : Bool)
    (h : p.canMove b x y = .ok (legal, true)) : legal = true :=
  (Piece.canMove_inv h).1 rfl

/-- C18 at the capture of the scenario: black at (3,4) over white at (4,5). -/
theorem capture_implies_legal_witness :
    Piece.canMove scenarioBoard ⟨3, 4, Color.black, false⟩ 5 6 = .ok (true, true) ∧
    true = true :=
  ⟨by decide, capture_implies_legal scenarioBoard ⟨3, 4, Color.black, false⟩ 5 6 true (by decide)⟩

/-! ## Reachable boards and states -/

theorem Board.moveReachable_synced {b : Board} (h : b.MoveReachable) :
    b.WellFormed ∧ b.Synced := by
  induction h with
  | init b => exact ⟨b.initPieces_wellFormed, b.initPieces_synced⟩
  | move _ hp hcm hm ih =>
    obtain ⟨hwf, hs⟩ := ih
    obtain ⟨b2, hm2, hwf2, hs2, -⟩ :=
      Piece.move_preserves hwf hs (Board.getPiece_some_validPos hwf hp) hcm rfl
    rw [hm] at hm2
    cases hm2
    exact ⟨hwf2, hs2⟩

theorem Board.synced_injective {b : Board} (hs : b.Synced) {x y x2 y2 : Int} {p : Piece}
    (h1 : b.getPiece x y = .ok (some p)) (h2 : b.getPiece x2 y2 = .ok (some p)) :
    x = x2 ∧ y = y2 := by
  obtain ⟨a1, a2⟩ := hs x y p h1
  obtain ⟨c1, c2⟩ := hs x2 y2 p h2
  exact ⟨a1.symm.trans c1, a2.symm.trans c2⟩

theorem initialState_playable : initialState.Playable :=
  ⟨Board.initPieces_wellFormed _, Board.initPieces_synced _, rfl, rfl, by decide,
    fun p h => by cases h⟩

theorem resetBoard_playable {s : State} (h : s.Playable) : (resetBoard s).Playable :=
  ⟨Board.initPieces_wellFormed _, Board.initPieces_synced _, h.2.2.1, h.2.2.2.1,
    Nat.zero_lt_two, fun p hp => by cases hp⟩

/-- A click in a playable state returns a playable state; and either board,
player and effects are unchanged, or the selected piece had a legal move to the
clicked cell. -/
theorem boardClicked_playable {s : State} (h : s.Playable) (x y : Int) :
    ∃ s2, boardClicked s x y = .ok s2 ∧ s2.Playable ∧
      ((s2.board = s.board ∧ s2.currentPlayer = s.currentPlayer ∧ s2.events = s.events) ∨
        ∃ sel k, s.selectedPiece = some sel ∧ sel.canMove s.board x y = .ok (true, k)) := by
  obtain ⟨hwf, hs, hw, hh, hcp, hselinv⟩ := h
  cases hv : s.board.validPos x y with
  | false =>
    refine ⟨s, ?_, ⟨hwf, hs, hw, hh, hcp, hselinv⟩, Or.inl ⟨rfl, rfl, rfl⟩⟩
    unfold boardClicked
    simp only [hv, Bool.not_false, if_true]
  | true =>
    have hvb := (s.board.validPos_iff x y).mp hv
    obtain ⟨o, ho⟩ := Board.getPiece_ok hwf y hvb.1 hvb.2.1
    cases o with
    | some piece =>
      by_cases hc : some piece.color = pieceColors[s.currentPlayer]?
      · refine ⟨{ s with selectedPiece := some piece }, ?_, ?_, Or.inl ⟨rfl, rfl, rfl⟩⟩
        · unfold boardClicked
          have hn : ¬ (some piece.color ≠ pieceColors[s.currentPlayer]?) := fun h => h hc
          simp only [hv, Bool.not_true, Bool.false_eq_true, if_false, ho, Except.bind, hn]
        · refine ⟨hwf, hs, hw, hh, hcp, ?_⟩
          intro p hp
          cases hp
          exact ⟨Board.holds_of_getPiece hs ho, hc⟩
      · refine ⟨s, ?_, ⟨hwf, hs, hw, hh, hcp, hselinv⟩, Or.inl ⟨rfl, rfl, rfl⟩⟩
        unfold boardClicked
        simp only [hv, Bool.not_true, Bool.false_eq_true, if_false, ho, Except.bind, hc, if_true,
          ne_eq, not_false_eq_true]
    | none =>
      cases hsel : s.selectedPiece with
      | none =>
        refine ⟨s, ?_, ⟨hwf, hs, hw, hh, hcp, hselinv⟩, Or.inl ⟨rfl, rfl, rfl⟩⟩
        unfold boardClicked
        simp only [hv, Bool.not_true, Bool.false_eq_true, if_false, ho, Except.bind, hsel]
      | some sel =>
        obtain ⟨hheld, -⟩ := hselinv sel hsel
        obtain ⟨cc, l, k, hcc, hcm, hkl, hno, hyes⟩ :=
          boardClicked_selected hwf hs hcp hsel hheld hv ho
        cases hperm : (if cc = true then k else l) with
        | false =>
          refine ⟨_, hno hperm, ⟨hwf, hs, hw, hh, hcp, fun p hp => by cases hp⟩,
            Or.inl ⟨rfl, rfl, rfl⟩⟩
        | true =>
          obtain ⟨b2, s2, hm, hwf2, hs2, hw2, hh2, hclick, hb, hsn, hp, -⟩ := hyes hperm
          have hl : l = true := by
            cases cc with
            | true => exact hkl (by simpa using hperm)
            | false => simpa using hperm
          refine ⟨s2, hclick, ?_, Or.inr ⟨sel, k, rfl, by rw [hcm, hl]⟩⟩
          refine ⟨by rw [hb]; exact hwf2, by rw [hb]; exact hs2, by rw [hb, hw2, hw],
            by rw [hb, hh2, hh], by rw [hp]; omega, ?_⟩
          intro p hp2
          rw [hsn] at hp2
          cases hp2

theorem State.Reachable.playable {s : State} (h : s.Reachable) : s.Playable := by
  induction h with
  | start => exact initialState_playable
  | click x y _ hclick ih =>
    obtain ⟨s3, h3, hp, -⟩ := boardClicked_playable ih x y
    rw [hclick] at h3
    cases h3
    exact hp
  | reset _ ih => exact resetBoard_playable ih

theorem clicks_reachable (l : List (Int × Int)) :
    ∀ (s s2 : State), s.Reachable → clicks s l = .ok s2 → s2.Reachable := by
  induction l with
  | nil =>
    intro s s2 hr h
    cases h
    exact hr
  | cons c rest ih =>
    intro s s2 hr h
    obtain ⟨x, y⟩ := c
    unfold clicks at h
    cases hc : boardClicked s x y with
    | error e => rw [hc] at h; cases h
    | ok s1 =>
      rw [hc] at h
      exact ih s1 s2 (State.Reachable.click x y hr hc) h

/-- C15: in every board reached from `initPieces` by legal moves, and in the
board of every state reached from the start by clicks and resets, each cell that
holds a piece holds one whose stored position is that cell, and no piece is held
by two cells. Locally, a successful `setPiece(x, y, p)` makes `getPiece(x, y)`
return `p` with stored position `(x, y)`, and `setPiece` succeeds at every
in-bounds cell of a well-formed board. -/
theorem position_sync :
    (∀ b : Board, b.MoveReachable →
      b.Synced ∧ ∀ (x y x2 y2 : Int) (p : Piece), b.getPiece x y = .ok (some p) →
        b.getPiece x2 y2 = .ok (some p) → x = x2 ∧ y = y2) ∧
    (∀ s : State, s.Reachable →
      s.board.Synced ∧ ∀ (x y x2 y2 : Int) (p : Piece), s.board.getPiece x y = .ok (some p) →
        s.board.getPiece x2 y2 = .ok (some p) → x = x2 ∧ y = y2) ∧
    (∀ (b b2 : Board) (x y : Int) (p : Piece), b.setPiece x y (some p) = .ok b2 →
      ∃ q, b2.getPiece x y = .ok (some q) ∧ q.x = x ∧ q.y = y ∧
        q.color = p.color ∧ q.king = p.king) ∧
    (∀ (b : Board) (x y : Int) (p : Piece), b.WellFormed → b.validPos x y = true →
      ∃ b2, b.setPiece x y (some p) = .ok b2) := by
  refine ⟨fun b hb => ?_, fun s hr => ?_, fun b b2 x y p h => ?_, fun b x y p hwf hv => ?_⟩
  · obtain ⟨-, hs⟩ := Board.moveReachable_synced hb
    exact ⟨hs, fun x y x2 y2 p h1 h2 => Board.synced_injective hs h1 h2⟩
  · have hs := hr.playable.2.1
    exact ⟨hs, fun x y x2 y2 p h1 h2 => Board.synced_injective hs h1 h2⟩
  · refine ⟨{ p with x := x, y := y }, ?_, rfl, rfl, rfl, rfl⟩
    rw [Board.setPiece_getPiece h x y]
    simp
  · exact Board.setPiece_ok hwf hv (some p)

/-- C15 on the board reached from `new Board(8, 8)` by the move of the white
piece at (1,5) to (0,4): the cell (0,4) holds a piece with stored position (0,4). -/
theorem position_sync_witness :
    ∃ r, Piece.move (Board.new 8 8) ⟨1, 5, Color.white, false⟩ 0 4 = .ok r ∧
      r.1.MoveReachable ∧ r.1.getPiece 0 4 = .ok (some ⟨0, 4, Color.white, false⟩) ∧ r.1.Synced := by
  cases hm : Piece.move (Board.new 8 8) ⟨1, 5, Color.white, false⟩ 0 4 with
  | error e =>
    have : (Piece.move (Board.new 8 8) ⟨1, 5, Color.white, false⟩ 0 4).toBool = true := by decide
    rw [hm] at this
    cases this
  | ok r =>
    have hreach : r.1.MoveReachable :=
      Board.MoveReachable.move (Board.MoveReachable.init ⟨8, 8, []⟩)
        (by decide : (Board.initPieces ⟨8, 8, []⟩).Holds ⟨1, 5, Color.white, false⟩)
        (by decide : Piece.canMove (Board.initPieces ⟨8, 8, []⟩) ⟨1, 5, Color.white, false⟩ 0 4
          = .ok (true, false)) hm
    have hcell : (Piece.move (Board.new 8 8) ⟨1, 5, Color.white, false⟩ 0 4).map
        (fun r => r.1.getPiece 0 4) = .ok (.ok (some ⟨0, 4, Color.white, false⟩)) := by decide
    rw [hm] at hcell
    exact ⟨r, rfl, hreach, Except.ok.inj hcell, (position_sync.1 r.1 hreach).1⟩

/-- C16: in every state reached from the start by clicks and resets the player
index is 0 or 1, the selection is none or a piece that is on the board and has
the color of the current player, and every click returns. -/
theorem turn_state_invariant (s : State) (h : s.Reachable) :
    (s.currentPlayer = 0 ∨ s.currentPlayer = 1) ∧
    (s.selectedPiece = none ∨
      ∃ p, s.selectedPiece = some p ∧ s.board.Holds p ∧
        some p.color = pieceColors[s.currentPlayer]?) ∧
    ∀ x y : Int, ∃ s2, boardClicked s x y = .ok s2 := by
  have hp := h.playable
  obtain ⟨-, -, -, -, hcp, hsel⟩ := hp
  refine ⟨by omega, ?_, fun x y => ?_⟩
  · cases hs : s.selectedPiece with
    | none => exact Or.inl rfl
    | some p => exact Or.inr ⟨p, rfl, hsel p hs⟩
  · obtain ⟨s2, h2, -⟩ := boardClicked_playable h.playable x y
    exact ⟨s2, h2⟩

/-- C16 in the state after the first click of a game on the white piece at (1,5). -/
theorem turn_state_invariant_witness :
    State.Reachable { initialState with selectedPiece := some ⟨1, 5, Color.white, false⟩ } ∧
    ({ initialState with selectedPiece := some ⟨1, 5, Color.white, false⟩ } : State).currentPlayer = 0 ∧
    (Board.new 8 8).Holds ⟨1, 5, Color.white, false⟩ := by
  have hr : State.Reachable { initialState with selectedPiece := some ⟨1, 5, Color.white, false⟩ } :=
    State.Reachable.click 1 5 State.Reachable.start (by decide)
  obtain ⟨h1, h2, -⟩ := turn_state_invariant _ hr
  refine ⟨hr, by decide, ?_⟩
  rcases h2 with h2 | ⟨p, hp, hh, -⟩
  · cases h2
  · cases hp
    exact hh

/-- C17: in every state of the 8x8 game reached from the start by clicks and
resets in which `getLoss` of the color of the current player is true, every
click returns and leaves board, player and effects as they were, so no move is
made and no further win is announced. -/
theorem terminal_when_lost (s : State) (h : s.Reachable)
    (hloss : s.board.getLoss pieceColors[s.currentPlayer]? = .ok true) (x y : Int) :
    ∃ s2, boardClicked s x y = .ok s2 ∧ s2.board = s.board ∧
      s2.currentPlayer = s.currentPlayer ∧ s2.events = s.events := by
  have hp := h.playable
  obtain ⟨s2, hclick, -, hcase⟩ := boardClicked_playable hp x y
  obtain ⟨hwf, hs, hw, hh, hcp, hsel⟩ := hp
  rcases hcase with hsame | ⟨sel, k, hs1, hcm⟩
  · exact ⟨s2, hclick, hsame⟩
  · exfalso
    obtain ⟨hheld, hcol⟩ := hsel sel hs1
    obtain ⟨r, hr, hiff⟩ := Board.getLoss_wide hwf hs (by omega) pieceColors[s.currentPlayer]?
    rw [hloss] at hr
    cases hr
    exact hiff.mp rfl sel hheld hcol x y k hcm

theorem lostGame_result :
    (clicks initialState lostGame).map
      (fun s => (s.currentPlayer, s.board.getLoss pieceColors[s.currentPlayer]?)) =
      .ok (1, .ok true) := by
  decide!

/-- C17 at the end of the game `lostGame`: black is to move and has lost, and a
click on (2,2) changes neither board nor player nor effects. -/
theorem terminal_when_lost_witness :
    ∃ s, clicks initialState lostGame = .ok s ∧ s.Reachable ∧ s.currentPlayer = 1 ∧
      s.board.getLoss pieceColors[s.currentPlayer]? = .ok true ∧
      ∃ s2, boardClicked s 2 2 = .ok s2 ∧ s2.board = s.board ∧
        s2.currentPlayer = s.currentPlayer ∧ s2.events = s.events := by
  have hfacts := lostGame_result
  generalize hg : clicks initialState lostGame = r at hfacts
  cases r with
  | error e => cases hfacts
  | ok s =>
    have hf := Except.ok.inj hfacts
    have hcp : s.currentPlayer = 1 := congrArg Prod.fst hf
    have hloss : s.board.getLoss pieceColors[s.currentPlayer]? = .ok true := congrArg Prod.snd hf
    have hr : s.Reachable := clicks_reachable lostGame initialState s State.Reachable.start hg
    exact ⟨s, rfl, hr, hcp, hloss, terminal_when_lost s hr hloss 2 2⟩

/-! ## Counting pieces -/

theorem sum_set_nat (l : List Nat) (i : Nat) (a : Nat) (h : i < l.length) :
    (l.set i a).sum + l[i] = l.sum + a := by
  induction l generalizing i with
  | nil => simp at h
  | cons v rest ih =>
    cases i with
    | zero => simp; omega
    | succ i =>
      have h2 : i < rest.length := by simpa using h
      have := ih i h2
      simp only [List.set_cons_succ, List.sum_cons, List.getElem_cons_succ]
      omega

theorem Board.setPiece_count {b b2 : Board} {x y : Int} {v : Option Piece} (c : Color)
    (h : b.setPiece x y v = .ok b2) :
    ∃ old, b.getPiece x y = .ok old ∧
      b2.countColor c + cellCount c old =
        b.countColor c + cellCount c (v.map fun p => { p with x := x, y := y }) := by
  obtain ⟨col, hcol, hy0, hy1, rfl⟩ := Board.setPiece_inv h
  have hx := arrayGet_eq_some hcol
  have hi : x.toNat < b.pieces.length := hx.2
  have hj : y.toNat < col.length := by omega
  have hLi : b.pieces[x.toNat] = col := by
    have h1 : b.pieces[x.toNat]? = some col := by
      simpa [arrayGet, hx.1] using hcol
    exact (List.getElem?_eq_some_iff.mp h1).2
  have hget : b.getPiece x y = .ok col[y.toNat] := by
    have h2 : arrayGet col y = some col[y.toNat] := by
      simp [arrayGet, hy0, List.getElem?_eq_getElem hj]
    simp only [Board.getPiece, Board.column, hcol, Except.bind, h2]
    rfl
  refine ⟨col[y.toNat], hget, ?_⟩
  unfold Board.countColor
  dsimp only
  rw [List.countP_flatten, List.countP_flatten, List.map_set]
  have hs := sum_set_nat (b.pieces.map (List.countP fun cell =>
      match cell with
      | some p => p.color == c
      | none => false)) x.toNat
    ((col.set y.toNat (v.map fun p => { p with x := x, y := y })).countP fun cell =>
      match cell with
      | some p => p.color == c
      | none => false) (by simpa using hi)
  have hcs := List.countP_set (fun (cell : Option Piece) =>
      match cell with
      | some p => p.color == c
      | none => false) col y.toNat (v.map fun p => { p with x := x, y := y }) hj
  have hle := List.boole_getElem_le_countP (fun (cell : Option Piece) =>
      match cell with
      | some p => p.color == c
      | none => false) col y.toNat hj
  have hlen : x.toNat < (b.pieces.map (List.countP fun (cell : Option Piece) =>
      match cell with
      | some p => p.color == c
      | none => false)).length := by simpa using hi
  have hmapi : (b.pieces.map (List.countP fun (cell : Option Piece) =>
      match cell with
      | some p => p.color == c
      | none => false))[x.toNat] = col.countP fun (cell : Option Piece) =>
      match cell with
      | some p => p.color == c
      | none => false := by
    rw [List.getElem_map, hLi]
  rw [hmapi] at hs
  unfold cellCount
  omega

theorem Piece.move_inv {b : Board} {p : Piece} {x y : Int} {r : Board × Piece × Bool}
    (h : p.move b x y = .ok r) :
    ∃ b1 b2,
      (if ((x - p.x).natAbs == 2) = true then
        b.removePiece (p.x + Int.sign (x - p.x)) (p.y + Int.sign (y - p.y)) else .ok b) = .ok b1 ∧
      b1.removePiece p.x p.y = .ok b2 ∧
      b2.setPiece x y (some (if y == p.promotionRow b then { p with king := true } else p)) =
        .ok r.1 := by
  have hp1 : ∀ q : Piece, (if y == p.promotionRow b then { p with king := true } else p) = q →
      q.x = p.x ∧ q.y = p.y := by
    intro q hq
    subst hq
    split <;> exact ⟨rfl, rfl⟩
  unfold Piece.move at h
  dsimp only at h
  rw [(hp1 _ rfl).1, (hp1 _ rfl).2] at h
  generalize (if ((x - p.x).natAbs == 2) = true then
    b.removePiece (p.x + Int.sign (x - p.x)) (p.y + Int.sign (y - p.y)) else .ok b) = e1 at h ⊢
  cases e1 with
  | error e => cases h
  | ok b1 =>
    simp only [Except.bind] at h
    cases h2 : b1.removePiece p.x p.y with
    | error e => rw [h2] at h; cases h
    | ok b2 =>
      rw [h2] at h
      simp only at h
      cases h3 : b2.setPiece x y
          (some (if y == p.promotionRow b then { p with king := true } else p)) with
      | error e => rw [h3] at h; cases h
      | ok b3 =>
        rw [h3] at h
        cases h
        exact ⟨b1, b2, rfl, h2, h3⟩

theorem Board.getPiece_of_isEmpty {b : Board} {x y : Int} (h : b.isEmpty x y = .ok true) :
    b.getPiece x y = .ok none := by
  rw [Board.isEmpty_eq_map] at h
  cases hg : b.getPiece x y with
  | error e => rw [hg] at h; cases h
  | ok o =>
    rw [hg] at h
    cases o with
    | none => rfl
    | some q => cases h

/-- C19: for a piece on a well-formed board and a target that `canMove` reports
legal, `move` returns and leaves the number of pieces of the color of the mover
unchanged, and the number of pieces of any other color goes down by exactly 1
when the move is a capture and is unchanged otherwise. -/
theorem piece_conservation (b : Board) (p : Piece) (x y : Int) (capture : Bool)
    (hwf : b.WellFormed) (hp : b.Holds p) (hlegal : p.canMove b x y = .ok (true, capture)) :
    ∃ b2 p2, p.move b x y = .ok (b2, p2, capture) ∧
      b2.countColor p.color = b.countColor p.color ∧
      ∀ c, c ≠ p.color →
        b2.countColor c + (if capture = true then 1 else 0) = b.countColor c := by
  have hpv := Board.getPiece_some_validPos hwf hp
  obtain ⟨legal, cap, h1, h2, h3⟩ := Piece.canMove_resolved hwf hpv x y
  rw [hlegal] at h1
  cases h1
  obtain ⟨hv, hempty, hdiag, -, hstep⟩ := h2.mp rfl
  have htarget := Board.getPiece_of_isEmpty hempty
  have hcap : capture = ((x - p.x).natAbs == 2) := by
    cases hc : capture with
    | true => have := (h3.mp hc).2; simp [this]
    | false =>
      have : ¬ (x - p.x).natAbs = 2 := fun h => by
        have := h3.mpr ⟨rfl, h⟩
        rw [hc] at this
        cases this
      simp [this]
  obtain ⟨b3, hm, -, -, -, -⟩ := Piece.move_resolved hwf hpv hv (fun h => by omega)
  obtain ⟨b1, b2, e1, e2, e3⟩ := Piece.move_inv hm
  dsimp only at e3
  have hne : ¬ (x = p.x ∧ y = p.y) := by
    rintro ⟨hx, -⟩
    rcases hstep with h | ⟨h, -⟩ <;> omega
  have hafter : ∀ c, cellCount c (Option.map (fun q : Piece => { q with x := x, y := y })
      (some (if y == p.promotionRow b then { p with king := true } else p))) =
      cellCount c (some p) := by
    intro c
    unfold cellCount
    split <;> rfl
  -- the three stores, counted for an arbitrary color
  have hcount : ∀ c, ∃ o1, b3.countColor c + cellCount c (some p) + cellCount c o1 =
      b.countColor c + cellCount c (some p) ∧
      (capture = false → o1 = none) ∧
      (capture = true → ∃ q, o1 = some q ∧ q.color ≠ p.color) := by
    intro c
    obtain ⟨old3, g3, c3⟩ := Board.setPiece_count c e3
    obtain ⟨old2, g2, c2⟩ := Board.setPiece_count c e2
    rw [hafter c] at c3
    have c2b : b2.countColor c + cellCount c old2 = b1.countColor c := c2
    by_cases hc : (x - p.x).natAbs = 2
    · have hc3 : (y - p.y).natAbs = 2 := by omega
      have hmx : p.x + Int.sign (x - p.x) = (p.x + x) / 2 := by
        rw [sign_of_natAbs_two hc]; omega
      have hmy : p.y + Int.sign (y - p.y) = (p.y + y) / 2 := by
        rw [sign_of_natAbs_two hc3]; omega
      have hcb : ((x - p.x).natAbs == 2) = true := by simpa using hc
      simp only [hcb, if_true] at e1
      rw [hmx, hmy] at e1
      obtain ⟨old1, g1, c1⟩ := Board.setPiece_count c e1
      have c1b : b1.countColor c + cellCount c old1 = b.countColor c := c1
      have hq : ∃ q, b.getPiece ((p.x + x) / 2) ((p.y + y) / 2) = .ok (some q) ∧
          q.color ≠ p.color := by
        rcases hstep with h | ⟨-, h⟩
        · omega
        · exact h
      obtain ⟨q, hq1, hq2⟩ := hq
      rw [hq1] at g1
      have ho1 : old1 = some q := (Except.ok.inj g1).symm
      have n1 : ¬ (p.x = (p.x + x) / 2 ∧ p.y = (p.y + y) / 2) := by omega
      have n2 : ¬ (x = (p.x + x) / 2 ∧ y = (p.y + y) / 2) := by omega
      rw [Board.removePiece_getPiece e1 p.x p.y] at g2
      simp only [n1, if_false] at g2
      rw [hp] at g2
      have ho2 : old2 = some p := (Except.ok.inj g2).symm
      rw [Board.removePiece_getPiece e2 x y, Board.removePiece_getPiece e1 x y] at g3
      simp only [hne, n2, if_false] at g3
      rw [htarget] at g3
      have ho3 : old3 = none := (Except.ok.inj g3).symm
      subst ho1 ho2 ho3
      have z : cellCount c (none : Option Piece) = 0 := rfl
      refine ⟨some q, by omega, fun h => ?_, fun _ => ⟨q, rfl, hq2⟩⟩
      rw [hcap, hcb] at h
      cases h
    · have hcb : ((x - p.x).natAbs == 2) = false := by simpa using hc
      simp only [hcb, Bool.false_eq_true, if_false] at e1
      have hb1 : b1 = b := (Except.ok.inj e1).symm
      subst hb1
      rw [hp] at g2
      have ho2 : old2 = some p := (Except.ok.inj g2).symm
      rw [Board.removePiece_getPiece e2 x y] at g3
      simp only [hne, if_false] at g3
      rw [htarget] at g3
      have ho3 : old3 = none := (Except.ok.inj g3).symm
      subst ho2 ho3
      have z : cellCount c (none : Option Piece) = 0 := rfl
      refine ⟨none, by omega, fun _ => rfl, fun h => ?_⟩
      rw [hcap, hcb] at h
      cases h
  refine ⟨b3, p.afterMove b x y, by rw [hcap]; exact hm, ?_, ?_⟩
  · obtain ⟨o1, hc1, hn, hy⟩ := hcount p.color
    cases hk : capture with
    | false =>
      rw [hn hk] at hc1
      have z : cellCount p.color (none : Option Piece) = 0 := rfl
      omega
    | true =>
      obtain ⟨q, hq, hqc⟩ := hy hk
      rw [hq] at hc1
      have z : cellCount p.color (some q) = 0 := by
        unfold cellCount
        simp [hqc]
      omega
  · intro c hc
    obtain ⟨o1, hc1, hn, hy⟩ := hcount c
    cases hk : capture with
    | false =>
      rw [hn hk] at hc1
      have z : cellCount c (none : Option Piece) = 0 := rfl
      simp only [Bool.false_eq_true, if_false]
      omega
    | true =>
      obtain ⟨q, hq, hqc⟩ := hy hk
      rw [hq] at hc1
      have hqc2 : q.color = c := by
        cases hq1 : q.color <;> cases hq2 : p.color <;> cases c <;> simp_all
      have z : cellCount c (some q) = 1 := by
        unfold cellCount
        simp [hqc2]
      simp only [if_true]
      omega

/-- C19 at the capture of the scenario: one black and one white piece before,
one black and no white piece after. -/
theorem piece_conservation_witness :
    scenarioBoard.WellFormed ∧ scenarioBoard.Holds ⟨3, 4, Color.black, false⟩ ∧
    Piece.canMove scenarioBoard ⟨3, 4, Color.black, false⟩ 5 6 = .ok (true, true) ∧
    scenarioBoard.countColor Color.black = 1 ∧ scenarioBoard.countColor Color.white = 1 ∧
    ∃ b2 p2, Piece.move scenarioBoard ⟨3, 4, Color.black, false⟩ 5 6 = .ok (b2, p2, true) ∧
      b2.countColor Color.black = 1 ∧ b2.countColor Color.white = 0 := by
  refine ⟨by decide, by decide, by decide, by decide, by decide, ?_⟩
  obtain ⟨b2, p2, h1, h2, h3⟩ :=
    piece_conservation scenarioBoard ⟨3, 4, Color.black, false⟩ 5 6 true (by decide) (by decide)
      (by decide)
  have hb : scenarioBoard.countColor Color.black = 1 := by decide
  have hw : scenarioBoard.countColor Color.white = 1 := by decide
  have h4 := h3 Color.white (by decide)
  simp only [if_true] at h4
  exact ⟨b2, p2, h1, by rw [← hb]; exact h2, by omega⟩

/-! ## Grid accesses -/

theorem Piece.canMoveTraced_result (b : Board) (p : Piece) (x y : Int) :
    (p.canMoveTraced b x y).2 = p.canMove b x y := by
  unfold Piece.canMoveTraced Piece.canMove
  dsimp only
  cases b.validPos x y with
  | false => rfl
  | true =>
    simp only [Bool.not_true, Bool.false_eq_true, if_false]
    cases b.isEmpty x y with
    | error e => rfl
    | ok e =>
      cases e with
      | false => rfl
      | true =>
        simp only [Bool.not_true, Bool.false_eq_true, if_false, Except.bind]
        split
        · rfl
        · split
          · rfl
          · split <;> rfl

theorem Piece.canMoveTraced_reads (b : Board) (p : Piece) (x y : Int)
    (hp : b.validPos p.x p.y = true) :
    ∀ c ∈ (p.canMoveTraced b x y).1, b.validPos c.1 c.2 = true := by
  have hpb := (b.validPos_iff p.x p.y).mp hp
  unfold Piece.canMoveTraced
  dsimp only
  cases hv : b.validPos x y with
  | false =>
    intro c hc
    simp at hc
  | true =>
    have hvb := (b.validPos_iff x y).mp hv
    have hone : ∀ c ∈ [(x, y)], b.validPos c.1 c.2 = true := by
      intro c hc
      rw [List.mem_singleton] at hc
      subst hc
      exact hv
    simp only [Bool.not_true, Bool.false_eq_true, if_false]
    cases b.isEmpty x y with
    | error e => exact hone
    | ok e =>
      cases e with
      | false => exact hone
      | true =>
        simp only [Bool.not_true, Bool.false_eq_true, if_false]
        cases hq : quotientIsOne (y - p.y).natAbs (x - p.x).natAbs with
        | false => exact hone
        | true =>
          have hq2 := (quotientIsOne_iff _ _).mp hq
          simp only [Bool.not_true, Bool.false_eq_true, if_false]
          split
          · exact hone
          · cases hc : ((x - p.x).natAbs == 2) with
            | false => exact hone
            | true =>
              have hc2 : (x - p.x).natAbs = 2 := by simpa using hc
              have hc3 : (y - p.y).natAbs = 2 := by omega
              have hmx : p.x + Int.sign (x - p.x) = (p.x + x) / 2 := by
                rw [sign_of_natAbs_two hc2]; omega
              have hmy : p.y + Int.sign (y - p.y) = (p.y + y) / 2 := by
                rw [sign_of_natAbs_two hc3]; omega
              simp only [if_true]
              intro c hcm
              rcases List.mem_cons.mp hcm with h | h
              · subst h
                exact hv
              · rw [List.mem_singleton] at h
                subst h
                rw [hmx, hmy, Board.validPos_iff]
                omega

theorem Piece.moveTraced_result (b : Board) (p : Piece) (x y : Int) :
    (p.moveTraced b x y).2 = p.move b x y := by
  unfold Piece.moveTraced Piece.move
  dsimp only
  generalize (if ((x - p.x).natAbs == 2) = true then
    b.removePiece (p.x + Int.sign (x - p.x)) (p.y + Int.sign (y - p.y)) else .ok b) = e1
  cases e1 with
  | error e => rfl
  | ok b1 =>
    simp only [Except.bind]
    split <;> rename_i h <;> simp only [h]

theorem Piece.moveTraced_writes (b : Board) (p : Piece) (x y : Int) (capture : Bool)
    (hp : b.validPos p.x p.y = true) (hlegal : p.canMove b x y = .ok (true, capture)) :
    ∀ c ∈ (p.moveTraced b x y).1, b.validPos c.1 c.2 = true := by
  have hpb := (b.validPos_iff p.x p.y).mp hp
  obtain ⟨-, hinv⟩ := Piece.canMove_inv hlegal
  obtain ⟨hv, hdiag, hstep, -⟩ := hinv rfl
  have hvb := (b.validPos_iff x y).mp hv
  have hp1 : ∀ q : Piece, (if y == p.promotionRow b then { p with king := true } else p) = q →
      q.x = p.x ∧ q.y = p.y := by
    intro q hq
    subst hq
    split <;> exact ⟨rfl, rfl⟩
  have hw1 : ∀ c ∈ (if ((x - p.x).natAbs == 2) = true then
      [(p.x + Int.sign (x - p.x), p.y + Int.sign (y - p.y))] else []),
      b.validPos c.1 c.2 = true := by
    intro c hc
    by_cases h2 : (x - p.x).natAbs = 2
    · have h3 : (y - p.y).natAbs = 2 := by omega
      have hmx : p.x + Int.sign (x - p.x) = (p.x + x) / 2 := by
        rw [sign_of_natAbs_two h2]; omega
      have hmy : p.y + Int.sign (y - p.y) = (p.y + y) / 2 := by
        rw [sign_of_natAbs_two h3]; omega
      have hb : ((x - p.x).natAbs == 2) = true := by simpa using h2
      simp only [hb, if_true, List.mem_singleton] at hc
      subst hc
      rw [hmx, hmy, Board.validPos_iff]
      omega
    · have hb : ((x - p.x).natAbs == 2) = false := by simpa using h2
      simp only [hb, Bool.false_eq_true, if_false] at hc
      cases hc
  unfold Piece.moveTraced
  dsimp only
  rw [(hp1 _ rfl).1, (hp1 _ rfl).2]
  intro c hc
  have hall : c ∈ (if ((x - p.x).natAbs == 2) = true then
      [(p.x + Int.sign (x - p.x), p.y + Int.sign (y - p.y))] else []) ++ [(p.x, p.y), (x, y)] := by
    split at hc
    · exact List.mem_append_left _ hc
    · split at hc
      · rcases List.mem_append.mp hc with h | h
        · exact List.mem_append_left _ h
        · rw [List.mem_singleton] at h
          subst h
          exact List.mem_append_right _ (List.mem_cons_self _ _)
      · exact hc
  rcases List.mem_append.mp hall with h | h
  · exact hw1 c h
  · rcases List.mem_cons.mp h with h | h
    · subst h
      exact hp
    · rw [List.mem_singleton] at h
      subst h
      exact hv

/-- C20: on every board, for a piece whose stored position is in bounds and any
integer target, every coordinate at which `canMove` reads the grid is in bounds,
the midpoint of a jump included; and for a target that `canMove` reports legal,
every coordinate at which `move` writes the grid is in bounds. The traced
methods return what `canMove` and `move` return. -/
theorem accesses_in_bounds (b : Board) (p : Piece) (x y : Int)
    (hp : b.validPos p.x p.y = true) :
    (p.canMoveTraced b x y).2 = p.canMove b x y ∧
    (∀ c ∈ (p.canMoveTraced b x y).1, b.validPos c.1 c.2 = true) ∧
    (p.moveTraced b x y).2 = p.move b x y ∧
    (∀ capture, p.canMove b x y = .ok (true, capture) →
      ∀ c ∈ (p.moveTraced b x y).1, b.validPos c.1 c.2 = true) :=
  ⟨Piece.canMoveTraced_result b p x y, Piece.canMoveTraced_reads b p x y hp,
    Piece.moveTraced_result b p x y,
    fun capture hl => Piece.moveTraced_writes b p x y capture hp hl⟩

/-- C20 at the capture of the scenario: `canMove` reads (5,6) and the midpoint
(4,5); `move` writes (4,5), (3,4) and (5,6); all are inside the 8x8 board. -/
theorem accesses_in_bounds_witness :
    scenarioBoard.validPos 3 4 = true ∧
    (Piece.canMoveTraced scenarioBoard ⟨3, 4, Color.black, false⟩ 5 6).1 = [(5, 6), (4, 5)] ∧
    (Piece.moveTraced scenarioBoard ⟨3, 4, Color.black, false⟩ 5 6).1 = [(4, 5), (3, 4), (5, 6)] ∧
    (∀ c ∈ (Piece.canMoveTraced scenarioBoard ⟨3, 4, Color.black, false⟩ 5 6).1,
      scenarioBoard.validPos c.1 c.2 = true) ∧
    (∀ c ∈ (Piece.moveTraced scenarioBoard ⟨3, 4, Color.black, false⟩ 5 6).1,
      scenarioBoard.validPos c.1 c.2 = true) :=
  ⟨by decide, by decide, by decide,
    (accesses_in_bounds scenarioBoard ⟨3, 4, Color.black, false⟩ 5 6 (by decide)).2.1,
    (accesses_in_bounds scenarioBoard ⟨3, 4, Color.black, false⟩ 5 6 (by decide)).2.2.2 true
      (by decide)⟩


end Checkers
